import Mathlib

/-!
Verification development for the music-list normalization core:
`music_manager.py` (normalize_title, clean_filename, remove_duplicates_from_file,
compare_and_remove_duplicates) and `add_unmatched_songs.py` (parse_song_line,
is_track_number, clean_for_search, generate_search_queries).

Strings are modelled as `List Char`.  Python's regular-expression operations
used by the code are embedded as executable functions:
  * `re.sub(r'[^\w\s]', ' ', s)`  → `depunct` (character-wise replacement),
  * `re.sub(r'\s+', ' ', s)`      → `collapse`,
  * `.strip()`                    → `stripBoth`,
  * `.lower()`                    → `lowerStr`,
  * `re.sub(r'\b(feat|featuring|ft|feat\.|featuring\.)\b.*$', '', s)`
                                  → `featRemove` (leftmost match, `.` does not
                                    match a newline, `$` matches at the end of
                                    the string or just before a final newline).
Word characters follow the ASCII reading of Python's `\w` ([A-Za-z0-9_]),
whitespace the ASCII reading of `\s` (space, tab, newline, CR, FF, VT).
-/

/-- ASCII reading of Python's regex class `\w`. -/
def isWordChar (c : Char) : Bool := c.isAlphanum || c = '_'

/-- ASCII reading of Python's regex class `\s` (and of `str.isspace`). -/
def isSpaceChar (c : Char) : Bool :=
  c = ' ' || c = '\t' || c = '\n' || c = '\r' || c = '\x0b' || c = '\x0c'

/-- Python `str.lower`, character-wise (ASCII). -/
def lowerStr (l : List Char) : List Char := l.map Char.toLower

/-- Python `re.sub(r'[^\w\s]', ' ', s)`: replace every character that is
neither a word character nor whitespace by a single space. -/
def depunct (l : List Char) : List Char :=
  l.map (fun c => if isWordChar c || isSpaceChar c then c else ' ')

/-- Python `re.sub(r'\s+', ' ', s)`: replace every maximal whitespace run by
one space (the run is skipped until its last character, which becomes `' '`;
`collapse_cons_space` recovers the usual run-at-once description). -/
def collapse : List Char → List Char
  | [] => []
  | c :: rest =>
    if isSpaceChar c then
      match rest with
      | [] => [' ']
      | d :: _ => if isSpaceChar d then collapse rest else ' ' :: collapse rest
    else c :: collapse rest

/-- Python `str.lstrip()`. -/
def stripL (l : List Char) : List Char := l.dropWhile isSpaceChar

/-- Python `str.rstrip()`. -/
def stripR (l : List Char) : List Char := (l.reverse.dropWhile isSpaceChar).reverse

/-- Python `str.strip()`. -/
def stripBoth (l : List Char) : List Char := stripR (stripL l)

/-- The literal word `feat`. -/
def featW : List Char := ['f', 'e', 'a', 't']

/-- The literal word `featuring`. -/
def featuringW : List Char := ['f', 'e', 'a', 't', 'u', 'r', 'i', 'n', 'g']

/-- The literal word `ft`. -/
def ftW : List Char := ['f', 't']

/-- `wordHere w l` holds when the word `w` occurs at the head of `l` with a
regex word boundary `\b` on its right (end of string or a non-word char). -/
def wordHere (w l : List Char) : Bool :=
  w.isPrefixOf l &&
    (match l.drop w.length with
     | [] => true
     | c :: _ => !isWordChar c)

/-- Length of the featuring-marker word matched at the head of `l` by the
alternation `(feat|featuring|ft|feat\.|featuring\.)` followed by `\b`.
The dotted alternatives can never contribute a successful overall match that
the undotted ones do not (see the development notes on `featAux`), so only
the three bare words appear. -/
def markerLen (l : List Char) : Option Nat :=
  if wordHere featuringW l then some featuringW.length
  else if wordHere featW l then some featW.length
  else if wordHere ftW l then some ftW.length
  else none

/-- `tailOk l` holds when `.*$` can consume `l`: every newline occurring in
`l` is its final character. -/
def tailOk : List Char → Bool
  | [] => true
  | c :: rest => rest.isEmpty || ((c != '\n') && tailOk rest)

/-- Scanner for `re.sub(r'\b(feat|featuring|ft|feat\.|featuring\.)\b.*$', '', s)`.
`pw` records whether the previous character is a word character (so that the
left boundary `\b` can be decided).  At the leftmost position where a marker
word matches with boundaries and `.*$` reaches the end of the string, the
match (everything from the marker on, except a final newline used by `$` as
an anchor) is deleted. -/
def featAux (pw : Bool) : List Char → List Char
  | [] => []
  | c :: rest =>
    match (if pw then none else markerLen (c :: rest)) with
    | some k =>
      if tailOk ((c :: rest).drop k) then
        if ((c :: rest).drop k).contains '\n' then ['\n'] else []
      else c :: featAux (isWordChar c) rest
    | none => c :: featAux (isWordChar c) rest

/-- The featuring-marker removal `re.sub(r'\b(feat|...)\b.*$', '', s)`. -/
def featRemove (l : List Char) : List Char := featAux false l

/-- `normalize_title` from `music_manager.py`:
lowercase, replace `[^\w\s]` by a space, collapse whitespace and strip,
then remove everything from a featuring marker onward. -/
def normalize_title (title : List Char) : List Char :=
  featRemove (stripBoth (collapse (depunct (lowerStr title))))

/-- `clean_for_search` from `add_unmatched_songs.py`:
lowercase, remove everything from a featuring marker onward, replace
`[^\w\s]` by a space, collapse whitespace and strip. -/
def clean_for_search (text : List Char) : List Char :=
  stripBoth (collapse (depunct (featRemove (lowerStr text))))

/-- Python's substring test `sep in s` (for a non-empty `sep`). -/
def containsSeq (sep : List Char) : List Char → Bool
  | [] => sep.isEmpty
  | c :: rest => sep.isPrefixOf (c :: rest) || containsSeq sep rest

/-- The text before the first occurrence of `sep` (the whole string when
`sep` does not occur): Python `s.split(sep, 1)[0]` resp. `s.split(sep)[0]`. -/
def firstSplitPart (sep : List Char) : List Char → List Char
  | [] => []
  | c :: rest =>
    if sep.isPrefixOf (c :: rest) then [] else c :: firstSplitPart sep rest

/-- The text after the first occurrence of `sep` (empty when `sep` does not
occur): the second component of Python `s.split(sep, 1)`. -/
def afterFirst (sep : List Char) : List Char → List Char
  | [] => []
  | c :: rest =>
    if sep.isPrefixOf (c :: rest) then (c :: rest).drop sep.length
    else afterFirst sep rest

/-- The index of the first occurrence of `sep` as a contiguous subsequence. -/
def findOcc (sep : List Char) : List Char → Option Nat
  | [] => if sep.isEmpty then some 0 else none
  | c :: rest =>
    if sep.isPrefixOf (c :: rest) then some 0
    else (findOcc sep rest).map (· + 1)

/-- The literal delimiter `" by "`. -/
def byDelim : List Char := [' ', 'b', 'y', ' ']

/-- `parse_song_line` from `add_unmatched_songs.py`: split at the first
occurrence of the literal `" by "`; when present, the two halves are
stripped; when absent, the line is returned unchanged with an empty artist
string. -/
def parse_song_line (line : List Char) : List Char × List Char :=
  if containsSeq byDelim line then
    (stripBoth (firstSplitPart byDelim line), stripBoth (afterFirst byDelim line))
  else (line, [])

/-- The cleaned title used by `is_track_number`:
`re.sub(r'[^\w\s]', ' ', title.lower())` followed by whitespace collapsing
and stripping.  (The same clean-up that `normalize_title` performs before
its featuring-marker removal.) -/
def cleanedTitle (title : List Char) : List Char :=
  stripBoth (collapse (depunct (lowerStr title)))

/-- The literal word `track`. -/
def trackW : List Char := ['t', 'r', 'a', 'c', 'k']

/-- The anchored regex `^track(?:\s+\d+)?$` on a newline-free string:
the word `track`, optionally followed by whitespace and then digits,
and nothing else. -/
def matchTrack (l : List Char) : Bool :=
  trackW.isPrefixOf l &&
    (let rest := l.drop trackW.length
     rest.isEmpty ||
       (match rest with
        | [] => false
        | c :: _ =>
          isSpaceChar c &&
            (let digits := rest.dropWhile isSpaceChar
             !digits.isEmpty && digits.all Char.isDigit)))

/-- `is_track_number` from `add_unmatched_songs.py`. -/
def is_track_number (title : List Char) : Bool :=
  matchTrack (cleanedTitle title)

/-- The artist separator `" _ "` used in the song files. -/
def artistSep : List Char := [' ', '_', ' ']

/-- Python `' '.join`-style joining of a list of words with single spaces. -/
def spaced : List (List Char) → List Char
  | [] => []
  | [r] => r
  | r :: rs => r ++ ' ' :: spaced rs

/-- Fuel-indexed splitter for Python `str.split()` with no argument. -/
def pyWordsF : Nat → List Char → List (List Char)
  | 0, _ => []
  | _ + 1, [] => []
  | fuel + 1, c :: rest =>
    if isSpaceChar c then pyWordsF fuel rest
    else (c :: rest.takeWhile (fun d => !isSpaceChar d)) ::
      pyWordsF fuel (rest.dropWhile (fun d => !isSpaceChar d))

/-- Python `str.split()` with no argument: the whitespace-separated words. -/
def pyWords (l : List Char) : List (List Char) := pyWordsF l.length l

/-- The English articles removed by the fourth query variant. -/
def commonWords : List (List Char) := [['t', 'h', 'e'], ['a'], ['a', 'n']]

/-- `generate_search_queries` from `add_unmatched_songs.py`. -/
def generate_search_queries (title artists : List Char) : List (List Char) :=
  let clean_title := clean_for_search title
  let clean_artists := clean_for_search artists
  let base := [clean_title ++ ' ' :: clean_artists, clean_title]
  let withArtist :=
    if containsSeq artistSep clean_artists then
      base ++ [clean_title ++ ' ' :: firstSplitPart artistSep clean_artists]
    else base
  let title_words := pyWords clean_title
  if title_words.length > 2 then
    let filtered := title_words.filter (fun w => !(commonWords.contains w))
    if !filtered.isEmpty then
      withArtist ++ [spaced filtered ++ ' ' :: clean_artists]
    else withArtist
  else withArtist

/-- The line-filtering core of `remove_duplicates_from_file` in
`music_manager.py`: keep each line whose `normalize_title` key was not
already produced by an earlier line; `seen` models the Python set. -/
def dedupAux (seen : List (List Char)) : List (List Char) → List (List Char)
  | [] => []
  | l :: ls =>
    if seen.contains (normalize_title l) then dedupAux seen ls
    else l :: dedupAux (normalize_title l :: seen) ls

/-- `remove_duplicates_from_file`'s line filtering, started with an empty
`seen` set. -/
def remove_duplicates_lines (lines : List (List Char)) : List (List Char) :=
  dedupAux [] lines

/-- The line-classification core of `compare_and_remove_duplicates` in
`music_manager.py`: strip each line, skip blank lines, keep a line when its
`normalize_title` key is not in the reference key set, count it as removed
otherwise.  Returns (kept lines, removed count). -/
def compare_filter (refKeys : List (List Char)) :
    List (List Char) → List (List Char) × Nat
  | [] => ([], 0)
  | l :: ls =>
    let s := stripBoth l
    if s.isEmpty then compare_filter refKeys ls
    else if refKeys.contains (normalize_title s) then
      let p := compare_filter refKeys ls
      (p.1, p.2 + 1)
    else
      let p := compare_filter refKeys ls
      (s :: p.1, p.2)

/-- `os.path.splitext(p)[0]` (POSIX): drop the extension beginning at the
last dot, provided that dot comes after the last path separator and the
base name does not consist solely of leading dots up to it. -/
def lastIndexOf (c : Char) (l : List Char) : Option Nat :=
  match l.reverse.findIdx? (fun d => d == c) with
  | some i => some (l.length - 1 - i)
  | none => none

/-- See `lastIndexOf`; the root-name part of `os.path.splitext`. -/
def splitextName (l : List Char) : List Char :=
  match lastIndexOf '.' l with
  | none => l
  | some d =>
    let s : Nat := match lastIndexOf '/' l with | none => 0 | some si => si + 1
    if (match lastIndexOf '/' l with | none => true | some si => si < d) then
      if ((l.drop s).take (d - s)).any (fun ch => ch != '.') then l.take d
      else l
    else l

/-- Python `name.replace('._', '')`: delete every (left-to-right,
non-overlapping) occurrence of the two-character sequence `._`. -/
def removeHidden : List Char → List Char
  | '.' :: '_' :: rest => removeHidden rest
  | c :: rest => c :: removeHidden rest
  | [] => []

/-- `re.sub(r'^\d+[-.]?\d*\s*', '', name)`: strip a leading run of digits,
an optional `-` or `.`, further optional digits, and trailing whitespace. -/
def stripTrackNum (l : List Char) : List Char :=
  match l with
  | [] => []
  | c :: _ =>
    if c.isDigit then
      let r1 := l.dropWhile Char.isDigit
      let r2 := match r1 with
        | d :: rest => if d = '-' || d = '.' then rest else r1
        | [] => []
      (r2.dropWhile Char.isDigit).dropWhile isSpaceChar
    else l

/-- Fuel-indexed scanner for `re.sub(r'\([^)]*\)', '', name)`; the list
shrinks at every step, so `length` fuel always suffices. -/
def removeParensF : Nat → List Char → List Char
  | 0, _ => []
  | _ + 1, [] => []
  | fuel + 1, c :: rest =>
    if c = '(' && rest.contains ')' then
      removeParensF fuel ((rest.dropWhile (fun d => d != ')')).tail)
    else c :: removeParensF fuel rest

/-- `re.sub(r'\([^)]*\)', '', name)`: delete every parenthesized group that
closes at the next right parenthesis. -/
def removeParens (l : List Char) : List Char := removeParensF l.length l

/-- Fuel-indexed scanner for `re.sub(r'\[[^\]]*\]', '', name)`. -/
def removeBracketsF : Nat → List Char → List Char
  | 0, _ => []
  | _ + 1, [] => []
  | fuel + 1, c :: rest =>
    if c = '[' && rest.contains ']' then
      removeBracketsF fuel ((rest.dropWhile (fun d => d != ']')).tail)
    else c :: removeBracketsF fuel rest

/-- `re.sub(r'\[[^\]]*\]', '', name)`: delete every bracketed group that
closes at the next right bracket. -/
def removeBrackets (l : List Char) : List Char := removeBracketsF l.length l

/-- `clean_filename` from `music_manager.py`: drop the extension, delete all
`._` sequences, strip a leading track number, delete parenthesized and
bracketed groups, replace `[^\w\s]` by spaces, collapse whitespace, strip. -/
def clean_filename (filename : List Char) : List Char :=
  stripBoth (collapse (depunct (removeBrackets (removeParens
    (stripTrackNum (removeHidden (splitextName filename)))))))


/-! ### Analysis and specification-side definitions -/

/-- The maximal runs of word characters of a string (the tokens that survive
de-punctuation and whitespace collapsing). -/
def wordRuns : List Char → List (List Char)
  | [] => []
  | c :: rest =>
    if isWordChar c then
      (c :: rest.takeWhile isWordChar) :: wordRuns (rest.dropWhile isWordChar)
    else wordRuns rest
termination_by l => l.length
decreasing_by
  · exact Nat.lt_succ_of_le (List.dropWhile_sublist _).length_le
  · exact Nat.lt_succ_self _

/-- The three featuring-marker words. -/
def markerWords : List (List Char) := [featW, featuringW, ftW]

/-- Run-structured form of the featuring-marker removal on newline-free
strings: truncate just before the first word run that is exactly a marker
word. `featAux_eq_featStruct` proves it equal to `featRemove` there. -/
def featStruct : List Char → List Char
  | [] => []
  | c :: rest =>
    if isWordChar c then
      if markerWords.contains (c :: rest.takeWhile isWordChar) then []
      else (c :: rest.takeWhile isWordChar) ++ featStruct (rest.dropWhile isWordChar)
    else c :: featStruct rest
termination_by l => l.length
decreasing_by
  · exact Nat.lt_succ_of_le (List.dropWhile_sublist _).length_le
  · exact Nat.lt_succ_self _

/-- A string whose whitespace consists of isolated single `' '` characters
(the shape of `collapse` output after stripping). -/
def SingleSpaced (l : List Char) : Prop :=
  (∀ c ∈ l, isSpaceChar c = true → c = ' ') ∧
    l.Chain' (fun a b => ¬(isSpaceChar a = true ∧ isSpaceChar b = true))

/-- Specification-side deduplication (claim C6): keep the first line of each
`normalize_title`-key class, dropping every later line with the same key. -/
def dedupSpec : List (List Char) → List (List Char)
  | [] => []
  | l :: ls =>
    l :: dedupSpec (ls.filter (fun m => !(normalize_title m == normalize_title l)))
termination_by ls => ls.length
decreasing_by
  exact Nat.lt_succ_of_le (List.length_filter_le _ _)

/-- Specification-side (claim C8's words): strip the hidden-file marker `._`
only as a prefix. -/
def stripHiddenMarker (l : List Char) : List Char :=
  if ['.', '_'].isPrefixOf l then l.drop 2 else l

/-- Specification-side (claim C8's words): the `clean_filename` pipeline
with the hidden-file marker stripped only as a prefix. -/
def cleanFilenameClaim (filename : List Char) : List Char :=
  stripBoth (collapse (depunct (removeBrackets (removeParens
    (stripTrackNum (stripHiddenMarker (splitextName filename)))))))

/-- Specification-side (claim C8 as amended): the pipeline with every
occurrence of `._` removed, exactly as the code does. -/
def cleanFilenameAmended (filename : List Char) : List Char :=
  stripBoth (collapse (depunct (removeBrackets (removeParens
    (stripTrackNum (removeHidden (splitextName filename)))))))

/-- Specification-side (claim C4's words): the first query assembled from
the individually cleaned artist names joined by single spaces. -/
def claimFirstQuery (title : List Char) (artistNames : List (List Char)) : List Char :=
  clean_for_search title ++ ' ' :: spaced (artistNames.map clean_for_search)

/-- Specification-side (claim C2's words): replace every character that is
not alphanumeric and not whitespace by a space.  Unlike the code's
`depunct` (regex class `\w`), an underscore is not kept. -/
def specDepunct (l : List Char) : List Char :=
  l.map (fun c => if c.isAlphanum || isSpaceChar c then c else ' ')

/-- Specification-side (claim C2's words): strip the text from a
feat/ft/featuring marker word onward, unconditionally.  The marker is
matched as a word (same boundary notion as the code's `\b`), but unlike
the code's `featRemove` there is no `.*$` anchoring: the text after the
marker is discarded even when it contains a newline.  `pw` records whether
the previous character is a word character. -/
def specFeatStrip (pw : Bool) : List Char → List Char
  | [] => []
  | c :: rest =>
    match (if pw then none else markerLen (c :: rest)) with
    | some _ => []
    | none => c :: specFeatStrip (isWordChar c) rest

/-- Specification-side (claim C2's words): the NormalizedKey pipeline
lowercase → strip from a feat marker onward → replace non-alphanumeric,
non-whitespace characters by a space → collapse whitespace → trim. -/
def specNormalizedKey (x : List Char) : List Char :=
  stripBoth (collapse (specDepunct (specFeatStrip false (lowerStr x))))

/-- `occursAt sep l i` holds when `sep` occurs in `l` at index `i`. -/
def occursAt (sep l : List Char) (i : Nat) : Prop :=
  sep.isPrefixOf (l.drop i) = true

/-! ### Character-class facts -/

theorem space_not_word {c : Char} (h : isSpaceChar c = true) :
    isWordChar c = false := by
  simp only [isSpaceChar, Bool.or_eq_true, decide_eq_true_eq] at h
  rcases h with ((((h | h) | h) | h) | h) | h <;> subst h <;> decide

theorem word_not_space {c : Char} (h : isWordChar c = true) :
    isSpaceChar c = false := by
  cases hs : isSpaceChar c
  · rfl
  · rw [space_not_word hs] at h; cases h

theorem charToNat_ofNat_valid (n : Nat) (h : n.isValidChar) :
    (Char.ofNat n).toNat = n := by
  simp only [Char.ofNat, dif_pos h]
  rfl

theorem toLower_toLower (c : Char) : c.toLower.toLower = c.toLower := by
  simp only [Char.toLower]
  by_cases h : c.toNat ≥ 65 ∧ c.toNat ≤ 90
  · rw [if_pos h]
    have hv : (c.toNat + 32).isValidChar := Or.inl (by omega)
    have ht := charToNat_ofNat_valid (c.toNat + 32) hv
    rw [if_neg]
    omega
  · rw [if_neg h, if_neg h]

theorem toLower_eq_newline {c : Char} (h : c.toLower = '\n') : c = '\n' := by
  by_cases hc : c.toNat ≥ 65 ∧ c.toNat ≤ 90
  · exfalso
    have hv : (c.toNat + 32).isValidChar := Or.inl (by omega)
    have ht := charToNat_ofNat_valid (c.toNat + 32) hv
    have : c.toLower.toNat = c.toNat + 32 := by
      simp only [Char.toLower, if_pos hc]; exact ht
    rw [h] at this
    simp only [show ('\n').toNat = 10 from rfl] at this
    omega
  · rwa [show c.toLower = c by simp only [Char.toLower, if_neg hc]] at h

/-! ### Strip lemmas -/

theorem stripR_nil : stripR [] = [] := rfl

theorem stripR_append_all_space {s : List Char}
    (hs : ∀ c ∈ s, isSpaceChar c = true) (l : List Char) :
    stripR (l ++ s) = stripR l := by
  simp only [stripR, List.reverse_append, List.dropWhile_append]
  rw [List.dropWhile_eq_nil_iff.2 (fun c hc => hs c (List.mem_reverse.1 hc))]
  simp

theorem stripR_eq_nil_iff {l : List Char} :
    stripR l = [] ↔ ∀ c ∈ l, isSpaceChar c = true := by
  simp only [stripR, List.reverse_eq_nil_iff, List.dropWhile_eq_nil_iff,
    List.mem_reverse]

theorem stripR_append_of_ne_nil {b : List Char} (hb : stripR b ≠ [])
    (a : List Char) : stripR (a ++ b) = a ++ stripR b := by
  simp only [stripR, List.reverse_append, List.dropWhile_append] at *
  rw [if_neg]
  · simp
  · simp only [List.isEmpty_iff]
    intro hnil
    exact hb (by simp [hnil])

theorem stripR_of_all_not_space {l : List Char}
    (h : ∀ c ∈ l, isSpaceChar c = false) : stripR l = l := by
  simp only [stripR, List.reverse_eq_iff]
  rw [List.dropWhile_eq_self_iff]
  intro hl hc
  have hm : l.reverse.get ⟨0, hl⟩ ∈ l :=
    List.mem_reverse.1 (List.get_mem l.reverse 0 hl)
  rw [h _ hm] at hc
  cases hc

theorem stripL_of_head_not_space {c : Char} {l : List Char}
    (h : isSpaceChar c = false) : stripL (c :: l) = c :: l := by
  simp [stripL, List.dropWhile_cons, h]

theorem stripL_cons_space {c : Char} {l : List Char}
    (h : isSpaceChar c = true) : stripL (c :: l) = stripL l := by
  simp [stripL, List.dropWhile_cons, h]

theorem stripR_ne_nil_of_head {c : Char} {l : List Char}
    (h : isSpaceChar c = false) : stripR (c :: l) ≠ [] := by
  intro hn
  exact absurd (stripR_eq_nil_iff.1 hn c (List.mem_cons_self c l)) (by simp [h])

/-! ### Collapse, depunct and word-run lemmas -/

theorem head_dropWhile_false (p : Char → Bool) (l : List Char) :
    ∀ d ∈ (l.dropWhile p).head?, p d = false := by
  induction l with
  | nil => simp
  | cons c t ih =>
    simp only [List.dropWhile_cons]
    split
    · exact ih
    · rename_i hc
      intro d hd
      simp only [List.head?_cons, Option.mem_def, Option.some.injEq] at hd
      subst hd
      simpa using hc

theorem collapse_nil : collapse [] = [] := rfl

theorem collapse_cons_nonspace {c : Char} (h : isSpaceChar c = false)
    (l : List Char) : collapse (c :: l) = c :: collapse l := by
  cases l <;> simp [collapse, h]

theorem collapse_cons_space {c : Char} (h : isSpaceChar c = true)
    (l : List Char) :
    collapse (c :: l) = ' ' :: collapse (l.dropWhile isSpaceChar) := by
  induction l generalizing c with
  | nil => simp [collapse, h]
  | cons d l' ih =>
    by_cases hd : isSpaceChar d = true
    · rw [show collapse (c :: d :: l') = collapse (d :: l') by
        simp [collapse, h, hd]]
      rw [ih hd, List.dropWhile_cons, if_pos hd]
    · have hd' : isSpaceChar d = false := by simpa using hd
      rw [show collapse (c :: d :: l') = ' ' :: collapse (d :: l') by
        simp [collapse, h, hd']]
      rw [List.dropWhile_cons, if_neg (by simp [hd'])]

theorem collapse_append_nonspace {r : List Char}
    (hr : ∀ d ∈ r, isSpaceChar d = false) (u : List Char) :
    collapse (r ++ u) = r ++ collapse u := by
  induction r with
  | nil => simp
  | cons c t ih =>
    rw [List.cons_append, collapse_cons_nonspace (hr c (by simp))]
    rw [ih (fun d hd => hr d (by simp [hd]))]
    simp

theorem depunct_cons (c : Char) (l : List Char) :
    depunct (c :: l) =
      (if isWordChar c || isSpaceChar c then c else ' ') :: depunct l := rfl

theorem depunct_fix_of_word {w : List Char}
    (hw : ∀ d ∈ w, isWordChar d = true) : depunct w = w := by
  induction w with
  | nil => rfl
  | cons c t ih =>
    rw [depunct_cons, hw c (by simp), ih (fun d hd => hw d (by simp [hd]))]
    simp

theorem stripL_of_head_false {w : List Char}
    (h : ∀ d ∈ w.head?, isSpaceChar d = false) : stripL w = w := by
  cases w with
  | nil => rfl
  | cons c t => exact stripL_of_head_not_space (h c (by simp))

theorem stripL_stripL (l : List Char) : stripL (stripL l) = stripL l :=
  stripL_of_head_false (head_dropWhile_false _ _)

theorem stripL_collapse_of_head_false {w : List Char}
    (h : ∀ d ∈ w.head?, isSpaceChar d = false) : stripL (collapse w) = collapse w := by
  cases w with
  | nil => rw [collapse_nil]; rfl
  | cons c t =>
    have hc := h c (by simp)
    rw [collapse_cons_nonspace hc, stripL_of_head_not_space hc]

theorem collapse_dropWhile_eq_stripL_collapse (z : List Char) :
    collapse (z.dropWhile isSpaceChar) = stripL (collapse z) := by
  cases z with
  | nil => simp [collapse_nil, stripL]
  | cons c t =>
    by_cases h : isSpaceChar c = true
    · rw [List.dropWhile_cons, if_pos h, collapse_cons_space h,
        stripL_cons_space (by decide : isSpaceChar ' ' = true)]
      exact (stripL_collapse_of_head_false (head_dropWhile_false _ _)).symm
    · have h' : isSpaceChar c = false := by simpa using h
      rw [List.dropWhile_cons, if_neg (by simp [h']), collapse_cons_nonspace h',
        stripL_of_head_not_space h']

theorem wordRuns_nil : wordRuns [] = [] := by simp [wordRuns]

theorem wordRuns_cons_word {c : Char} (h : isWordChar c = true)
    (rest : List Char) :
    wordRuns (c :: rest) =
      (c :: rest.takeWhile isWordChar) :: wordRuns (rest.dropWhile isWordChar) := by
  rw [wordRuns, if_pos h]

theorem wordRuns_cons_nonword {c : Char} (h : isWordChar c = false)
    (rest : List Char) : wordRuns (c :: rest) = wordRuns rest := by
  rw [wordRuns, if_neg (by simp [h])]

theorem wordRuns_ne_nil_aux :
    ∀ (n : Nat) (l : List Char), l.length ≤ n → ∀ r ∈ wordRuns l, r ≠ [] := by
  intro n
  induction n with
  | zero =>
    intro l hl
    rw [List.length_eq_zero.1 (Nat.le_zero.1 hl), wordRuns_nil]
    simp
  | succ n ih =>
    intro l hl
    cases l with
    | nil => rw [wordRuns_nil]; simp
    | cons c rest =>
      by_cases h : isWordChar c = true
      · rw [wordRuns_cons_word h]
        intro r hr
        rcases List.mem_cons.1 hr with h1 | h1
        · subst h1; simp
        · exact ih _ (Nat.le_trans (List.dropWhile_sublist _).length_le
            (Nat.le_of_succ_le_succ hl)) r h1
      · rw [wordRuns_cons_nonword (by simpa using h)]
        exact ih _ (Nat.le_of_succ_le_succ hl)

theorem wordRuns_ne_nil {l : List Char} : ∀ r ∈ wordRuns l, r ≠ [] :=
  wordRuns_ne_nil_aux l.length l (Nat.le_refl _)

theorem wordRuns_all_word_aux :
    ∀ (n : Nat) (l : List Char), l.length ≤ n →
      ∀ r ∈ wordRuns l, ∀ d ∈ r, isWordChar d = true := by
  intro n
  induction n with
  | zero =>
    intro l hl
    rw [List.length_eq_zero.1 (Nat.le_zero.1 hl), wordRuns_nil]
    simp
  | succ n ih =>
    intro l hl
    cases l with
    | nil => rw [wordRuns_nil]; simp
    | cons c rest =>
      by_cases h : isWordChar c = true
      · rw [wordRuns_cons_word h]
        intro r hr
        rcases List.mem_cons.1 hr with h1 | h1
        · subst h1
          intro d hd
          rcases List.mem_cons.1 hd with h2 | h2
          · subst h2; exact h
          · exact List.mem_takeWhile_imp h2
        · exact ih _ (Nat.le_trans (List.dropWhile_sublist _).length_le
            (Nat.le_of_succ_le_succ hl)) r h1
      · rw [wordRuns_cons_nonword (by simpa using h)]
        exact ih _ (Nat.le_of_succ_le_succ hl)

theorem wordRuns_all_word {l : List Char} :
    ∀ r ∈ wordRuns l, ∀ d ∈ r, isWordChar d = true :=
  wordRuns_all_word_aux l.length l (Nat.le_refl _)

theorem wordRuns_chars_mem_aux :
    ∀ (n : Nat) (l : List Char), l.length ≤ n →
      ∀ r ∈ wordRuns l, ∀ d ∈ r, d ∈ l := by
  intro n
  induction n with
  | zero =>
    intro l hl
    rw [List.length_eq_zero.1 (Nat.le_zero.1 hl), wordRuns_nil]
    simp
  | succ n ih =>
    intro l hl
    cases l with
    | nil => rw [wordRuns_nil]; simp
    | cons c rest =>
      by_cases h : isWordChar c = true
      · rw [wordRuns_cons_word h]
        intro r hr
        rcases List.mem_cons.1 hr with h1 | h1
        · subst h1
          intro d hd
          rcases List.mem_cons.1 hd with h2 | h2
          · subst h2; simp
          · exact List.mem_cons_of_mem _ ((List.takeWhile_sublist _).mem h2)
        · intro d hd
          exact List.mem_cons_of_mem _
            ((List.dropWhile_sublist _).mem
              (ih _ (Nat.le_trans (List.dropWhile_sublist _).length_le
                (Nat.le_of_succ_le_succ hl)) r h1 d hd))
      · rw [wordRuns_cons_nonword (by simpa using h)]
        intro r hr d hd
        exact List.mem_cons_of_mem _
          (ih _ (Nat.le_of_succ_le_succ hl) r hr d hd)

theorem wordRuns_chars_mem {l : List Char} :
    ∀ r ∈ wordRuns l, ∀ d ∈ r, d ∈ l :=
  wordRuns_chars_mem_aux l.length l (Nat.le_refl _)

theorem wordRuns_append_run {r u : List Char} (hr : r ≠ [])
    (hra : ∀ d ∈ r, isWordChar d = true)
    (hu : ∀ d ∈ u.head?, isWordChar d = false) :
    wordRuns (r ++ u) = r :: wordRuns u := by
  cases r with
  | nil => exact absurd rfl hr
  | cons c r' =>
    have hc : isWordChar c = true := hra c (by simp)
    rw [List.cons_append, wordRuns_cons_word hc]
    have htw : (r' ++ u).takeWhile isWordChar = r' := by
      rw [List.takeWhile_append,
        if_pos (by rw [List.takeWhile_eq_self_iff.2
          (fun d hd => hra d (by simp [hd]))])]
      have : u.takeWhile isWordChar = [] := by
        cases u with
        | nil => rfl
        | cons d t =>
          rw [List.takeWhile_cons, if_neg (by simp [hu d (by simp)])]
      rw [this, List.append_nil]
    have hdw : (r' ++ u).dropWhile isWordChar = u := by
      rw [List.dropWhile_append]
      rw [List.dropWhile_eq_nil_iff.2 (fun d hd => hra d (by simp [hd]))]
      simp only [List.isEmpty_nil, if_true]
      cases u with
      | nil => rfl
      | cons d t => rw [List.dropWhile_cons, if_neg (by simp [hu d (by simp)])]
    rw [htw, hdw]

theorem spaced_nil : spaced [] = [] := rfl

theorem spaced_single (r : List Char) : spaced [r] = r := rfl

theorem spaced_cons_cons (r a : List Char) (as : List (List Char)) :
    spaced (r :: a :: as) = r ++ ' ' :: spaced (a :: as) := rfl

theorem spaced_ne_nil {w : List Char} (hw : w ≠ []) (ws : List (List Char)) :
    spaced (w :: ws) ≠ [] := by
  cases ws with
  | nil => simpa [spaced_single] using hw
  | cons a as =>
    rw [spaced_cons_cons]
    simp

theorem head_spaced {w : List Char} (hw : w ≠ []) (ws : List (List Char)) :
    (spaced (w :: ws)).head? = w.head? := by
  cases ws with
  | nil => rw [spaced_single]
  | cons a as =>
    rw [spaced_cons_cons]
    cases w with
    | nil => exact absurd rfl hw
    | cons c t => simp

theorem wordRuns_spaced {rs : List (List Char)} (h1 : ∀ r ∈ rs, r ≠ [])
    (h2 : ∀ r ∈ rs, ∀ d ∈ r, isWordChar d = true) :
    wordRuns (spaced rs) = rs := by
  induction rs with
  | nil => simp [spaced_nil, wordRuns_nil]
  | cons r rs ih =>
    cases rs with
    | nil =>
      rw [spaced_single, show r = r ++ ([] : List Char) by simp,
        wordRuns_append_run (by simpa using h1 r (by simp))
          (h2 r (by simp)) (by simp)]
      simp [wordRuns_nil]
    | cons a as =>
      rw [spaced_cons_cons,
        wordRuns_append_run (h1 r (by simp)) (h2 r (by simp))
          (by simp; decide),
        wordRuns_cons_nonword (by decide)]
      rw [ih (fun x hx => h1 x (by simp [hx])) (fun x hx => h2 x (by simp [hx]))]

theorem chain'_no_space_of_all_word {r : List Char}
    (h : ∀ d ∈ r, isWordChar d = true) :
    r.Chain' (fun a b => ¬(isSpaceChar a = true ∧ isSpaceChar b = true)) := by
  induction r with
  | nil => simp
  | cons c t ih =>
    rw [List.chain'_cons']
    refine ⟨?_, ih (fun d hd => h d (by simp [hd]))⟩
    intro y hy hcon
    exact absurd hcon.1 (by simp [word_not_space (h c (by simp))])

theorem singleSpaced_spaced {rs : List (List Char)} (h1 : ∀ r ∈ rs, r ≠ [])
    (h2 : ∀ r ∈ rs, ∀ d ∈ r, isWordChar d = true) : SingleSpaced (spaced rs) := by
  induction rs with
  | nil => exact ⟨by simp [spaced_nil], by simp [spaced_nil]⟩
  | cons r rs ih =>
    cases rs with
    | nil =>
      rw [spaced_single]
      exact ⟨fun c hc hsp =>
          absurd hsp (by simp [word_not_space (h2 r (by simp) c hc)]),
        chain'_no_space_of_all_word (h2 r (by simp))⟩
    | cons a as =>
      rw [spaced_cons_cons]
      have hih := ih (fun x hx => h1 x (by simp [hx]))
        (fun x hx => h2 x (by simp [hx]))
      constructor
      · intro c hc hsp
        rcases List.mem_append.1 hc with h3 | h3
        · exact absurd hsp (by simp [word_not_space (h2 r (by simp) c h3)])
        · rcases List.mem_cons.1 h3 with h4 | h4
          · exact h4
          · exact hih.1 c h4 hsp
      · rw [List.chain'_append]
        refine ⟨chain'_no_space_of_all_word (h2 r (by simp)), ?_, ?_⟩
        · rw [List.chain'_cons']
          refine ⟨?_, hih.2⟩
          intro y hy hcon
          rw [head_spaced (h1 a (by simp)) as] at hy
          have hya : y ∈ a := List.mem_of_mem_head? hy
          exact absurd hcon.2
            (by simp [word_not_space (h2 a (by simp) y hya)])
        · intro x hx y hy hcon
          have hxr : x ∈ r := List.mem_of_mem_getLast? hx
          exact absurd hcon.1
            (by simp [word_not_space (h2 r (by simp) x hxr)])

theorem collapse_of_singleSpaced {l : List Char} (h : SingleSpaced l) :
    collapse l = l := by
  induction l with
  | nil => exact collapse_nil
  | cons c t ih =>
    by_cases hc : isSpaceChar c = true
    · have hc' : c = ' ' := h.1 c (by simp) hc
      rw [collapse_cons_space hc]
      have ht : t.dropWhile isSpaceChar = t := by
        cases t with
        | nil => rfl
        | cons d t' =>
          rw [List.dropWhile_cons, if_neg]
          have := (List.chain'_cons'.1 h.2).1 d (by simp)
          intro hd
          exact this ⟨hc, hd⟩
      rw [ht, hc']
      have : SingleSpaced t :=
        ⟨fun d hd => h.1 d (by simp [hd]), (List.chain'_cons'.1 h.2).2⟩
      rw [ih this]
    · rw [collapse_cons_nonspace (by simpa using hc)]
      have : SingleSpaced t :=
        ⟨fun d hd => h.1 d (by simp [hd]), (List.chain'_cons'.1 h.2).2⟩
      rw [ih this]

theorem singleSpaced_append_left {a b : List Char}
    (h : SingleSpaced (a ++ b)) : SingleSpaced a :=
  ⟨fun c hc => h.1 c (List.mem_append_left _ hc),
    (List.chain'_append.1 h.2).1⟩

theorem depunct_singleSpaced_fix {l : List Char} (h : SingleSpaced l)
    (hw : ∀ c ∈ l, isWordChar c = true ∨ c = ' ') : depunct l = l := by
  induction l with
  | nil => rfl
  | cons c t ih =>
    rw [depunct_cons]
    have hc : (isWordChar c || isSpaceChar c) = true := by
      rcases hw c (by simp) with h1 | h1
      · simp [h1]
      · subst h1; decide
    rw [if_pos hc, ih ⟨fun d hd => h.1 d (by simp [hd]),
      (List.chain'_cons'.1 h.2).2⟩ (fun d hd => hw d (by simp [hd]))]

theorem depunct_append (a b : List Char) :
    depunct (a ++ b) = depunct a ++ depunct b :=
  List.map_append _ a b

theorem stripBoth_collapse_depunct_aux :
    ∀ (n : Nat) (v : List Char), v.length ≤ n →
      stripBoth (collapse (depunct v)) = spaced (wordRuns v) := by
  intro n
  induction n with
  | zero =>
    intro v hv
    rw [List.length_eq_zero.1 (Nat.le_zero.1 hv),
      show depunct [] = [] from rfl, collapse_nil, wordRuns_nil, spaced_nil]
    rfl
  | succ n ih =>
    intro v hv
    cases v with
    | nil =>
      rw [show depunct [] = [] from rfl, collapse_nil, wordRuns_nil, spaced_nil]
      rfl
    | cons c rest =>
      by_cases h : isWordChar c = true
      · have hword : ∀ d ∈ (c :: rest.takeWhile isWordChar),
            isWordChar d = true := by
          intro d hd
          rcases List.mem_cons.1 hd with h1 | h1
          · subst h1; exact h
          · exact List.mem_takeWhile_imp h1
        have hnr : ∀ d ∈ (c :: rest.takeWhile isWordChar),
            isSpaceChar d = false := fun d hd => word_not_space (hword d hd)
        have hsplit : c :: rest =
            (c :: rest.takeWhile isWordChar) ++ rest.dropWhile isWordChar := by
          rw [List.cons_append, List.takeWhile_append_dropWhile]
        have hstep : stripBoth (collapse (depunct (c :: rest))) =
            stripR ((c :: rest.takeWhile isWordChar) ++
              collapse (depunct (rest.dropWhile isWordChar))) := by
          conv_lhs => rw [hsplit]
          rw [depunct_append, depunct_fix_of_word hword,
            collapse_append_nonspace hnr]
          show stripR (stripL _) = _
          rw [List.cons_append,
            stripL_of_head_not_space (word_not_space h), ← List.cons_append]
        rw [hstep, wordRuns_cons_word h]
        cases hrest : rest.dropWhile isWordChar with
        | nil =>
          rw [show depunct [] = [] from rfl, collapse_nil, List.append_nil,
            stripR_of_all_not_space hnr, wordRuns_nil, spaced_single]
        | cons d t =>
          have hd : isWordChar d = false :=
            head_dropWhile_false isWordChar rest d (by rw [hrest]; simp)
          have hX : collapse (depunct (d :: t)) =
              ' ' :: stripL (collapse (depunct t)) := by
            rw [depunct_cons]
            have hd' : isSpaceChar
                (if (isWordChar d || isSpaceChar d) = true then d else ' ') =
                true := by
              by_cases hs : isSpaceChar d = true
              · rw [if_pos (by simp [hs]), hs]
              · rw [if_neg (by simp [hd, hs]) ]
                decide
            rw [collapse_cons_space hd',
              collapse_dropWhile_eq_stripL_collapse]
          have hIH : stripR (stripL (collapse (depunct (d :: t)))) =
              spaced (wordRuns (d :: t)) := by
            have hlen : (d :: t).length ≤ n := by
              have h1 : (rest.dropWhile isWordChar).length ≤ rest.length :=
                (List.dropWhile_sublist _).length_le
              rw [hrest] at h1
              exact Nat.le_trans h1 (Nat.le_of_succ_le_succ hv)
            exact ih _ hlen
          rw [hX] at hIH
          rw [stripL_cons_space (by decide), stripL_stripL] at hIH
          rw [hX]
          cases hru : wordRuns (d :: t) with
          | nil =>
            rw [hru] at hIH
            have hM : stripL (collapse (depunct t)) = [] := by
              have hall := stripR_eq_nil_iff.1 hIH
              cases hm : stripL (collapse (depunct t)) with
              | nil => rfl
              | cons m ms =>
                have h1 : isSpaceChar m = false := by
                  have := head_dropWhile_false isSpaceChar
                    (collapse (depunct t)) m
                  apply this
                  show m ∈ (stripL _).head?
                  rw [hm]; simp
                have h2 : isSpaceChar m = true := by
                  apply hall
                  rw [hm]; simp
                rw [h1] at h2; cases h2
            rw [hM, spaced_single,
              stripR_append_all_space
                (by intro x hx; simp at hx; subst hx; decide),
              stripR_of_all_not_space hnr]
          | cons w ws =>
            rw [hru] at hIH
            have hwne : w ≠ [] := by
              have := wordRuns_ne_nil (l := d :: t) w (by rw [hru]; simp)
              exact this
            have hne : stripR (stripL (collapse (depunct t))) ≠ [] := by
              rw [hIH]
              exact spaced_ne_nil hwne ws
            rw [spaced_cons_cons]
            rw [show (c :: rest.takeWhile isWordChar) ++
                ' ' :: stripL (collapse (depunct t)) =
                ((c :: rest.takeWhile isWordChar) ++ [' ']) ++
                stripL (collapse (depunct t)) by simp]
            rw [stripR_append_of_ne_nil hne, hIH]
            simp
      · have h' : isWordChar c = false := by simpa using h
        rw [depunct_cons, wordRuns_cons_nonword h']
        have hc' : isSpaceChar
            (if (isWordChar c || isSpaceChar c) = true then c else ' ') =
            true := by
          by_cases hs : isSpaceChar c = true
          · rw [if_pos (by simp [hs]), hs]
          · rw [if_neg (by simp [h', hs])]
            decide
        rw [collapse_cons_space hc', collapse_dropWhile_eq_stripL_collapse]
        show stripR (stripL _) = _
        rw [stripL_cons_space (by decide), stripL_stripL]
        exact ih rest (Nat.le_of_succ_le_succ hv)

theorem stripBoth_collapse_depunct (v : List Char) :
    stripBoth (collapse (depunct v)) = spaced (wordRuns v) :=
  stripBoth_collapse_depunct_aux v.length v (Nat.le_refl _)

/-! ### Featuring-marker removal lemmas -/

theorem prefixOf_exists :
    ∀ (w l : List Char), w.isPrefixOf l = true → ∃ t, l = w ++ t := by
  intro w
  induction w with
  | nil => intro l _; exact ⟨l, rfl⟩
  | cons a w' ih =>
    intro l h
    cases l with
    | nil => simp [List.isPrefixOf] at h
    | cons b l' =>
      simp only [List.isPrefixOf, Bool.and_eq_true, beq_iff_eq] at h
      obtain ⟨t, ht⟩ := ih l' h.2
      exact ⟨t, by rw [ht, h.1]; rfl⟩

theorem prefixOf_append (w t : List Char) : w.isPrefixOf (w ++ t) = true := by
  induction w with
  | nil => simp [List.isPrefixOf]
  | cons a as ih => simp [List.isPrefixOf, ih]

theorem tailOk_of_no_newline {l : List Char} (h : '\n' ∉ l) :
    tailOk l = true := by
  induction l with
  | nil => rfl
  | cons c rest ih =>
    rw [tailOk]
    have hc : c ≠ '\n' := fun hc => h (by simp [hc])
    rw [ih (fun hr => h (by simp [hr]))]
    simp [hc]

theorem wordHere_iff_run {w : List Char} (_hw : w ≠ [])
    (hwa : ∀ d ∈ w, isWordChar d = true) {c : Char} {rest : List Char}
    (hc : isWordChar c = true) :
    wordHere w (c :: rest) = true ↔ c :: rest.takeWhile isWordChar = w := by
  constructor
  · intro h
    simp only [wordHere, Bool.and_eq_true] at h
    obtain ⟨t, ht⟩ := prefixOf_exists w (c :: rest) h.1
    have hbd : ∀ d ∈ t.head?, isWordChar d = false := by
      intro d hd
      have := h.2
      rw [ht, List.drop_left] at this
      cases t with
      | nil => simp at hd
      | cons e t' =>
        simp only [List.head?_cons, Option.mem_def, Option.some.injEq] at hd
        subst hd
        simpa using this
    have : (c :: rest).takeWhile isWordChar = w := by
      rw [ht, List.takeWhile_append,
        if_pos (by rw [List.takeWhile_eq_self_iff.2 hwa]),
        show t.takeWhile isWordChar = [] by
          cases t with
          | nil => rfl
          | cons e t' =>
            rw [List.takeWhile_cons, if_neg (by simp [hbd e (by simp)])],
        List.append_nil]
    rwa [List.takeWhile_cons, if_pos hc] at this
  · intro h
    have hsplit : c :: rest = w ++ rest.dropWhile isWordChar := by
      conv_lhs => rw [show c :: rest =
        (c :: rest).takeWhile isWordChar ++ (c :: rest).dropWhile isWordChar
        from (List.takeWhile_append_dropWhile ..).symm]
      rw [List.takeWhile_cons, if_pos hc, h, List.dropWhile_cons, if_pos hc]
    simp only [wordHere, Bool.and_eq_true]
    constructor
    · rw [hsplit]; exact prefixOf_append _ _
    · rw [hsplit, List.drop_left]
      cases hdw : rest.dropWhile isWordChar with
      | nil => rfl
      | cons e t' =>
        have : isWordChar e = false :=
          head_dropWhile_false isWordChar rest e (by rw [hdw]; simp)
        simp [this]

theorem wordHere_nonword_head {w : List Char} (hw : w ≠ [])
    (hwa : ∀ d ∈ w, isWordChar d = true) {c : Char} {rest : List Char}
    (hc : isWordChar c = false) : wordHere w (c :: rest) = false := by
  cases hwh : wordHere w (c :: rest)
  · rfl
  · exfalso
    simp only [wordHere, Bool.and_eq_true] at hwh
    obtain ⟨t, ht⟩ := prefixOf_exists w (c :: rest) hwh.1
    cases w with
    | nil => exact hw rfl
    | cons a w' =>
      simp only [List.cons_append, List.cons.injEq] at ht
      have ha : a = c := ht.1.symm
      rw [ha] at hwa
      rw [hwa c (by simp)] at hc
      cases hc

theorem markerLen_run {c : Char} {rest : List Char} (hc : isWordChar c = true) :
    markerLen (c :: rest) =
      if markerWords.contains (c :: rest.takeWhile isWordChar) then
        some (c :: rest.takeWhile isWordChar).length
      else none := by
  simp only [markerLen]
  by_cases h9 : wordHere featuringW (c :: rest) = true
  · have h9' := (wordHere_iff_run (by decide) (by decide) hc).1 h9
    rw [if_pos h9]
    rw [show markerWords.contains (c :: rest.takeWhile isWordChar) = true by
      rw [h9']; decide]
    rw [if_pos rfl, h9']
  · rw [if_neg h9]
    by_cases h4 : wordHere featW (c :: rest) = true
    · have h4' := (wordHere_iff_run (by decide) (by decide) hc).1 h4
      rw [if_pos h4]
      rw [show markerWords.contains (c :: rest.takeWhile isWordChar) = true by
        rw [h4']; decide]
      rw [if_pos rfl, h4']
    · rw [if_neg h4]
      by_cases h2 : wordHere ftW (c :: rest) = true
      · have h2' := (wordHere_iff_run (by decide) (by decide) hc).1 h2
        rw [if_pos h2]
        rw [show markerWords.contains (c :: rest.takeWhile isWordChar) = true by
          rw [h2']; decide]
        rw [if_pos rfl, h2']
      · rw [if_neg h2]
        have hrun : markerWords.contains (c :: rest.takeWhile isWordChar) = false := by
          cases hm : markerWords.contains (c :: rest.takeWhile isWordChar)
          · rfl
          · exfalso
            have hmem : (c :: rest.takeWhile isWordChar) ∈ markerWords := by
              simpa [List.elem_iff] using hm
            simp only [markerWords, List.mem_cons, List.mem_singleton] at hmem
            rcases hmem with hx | hx | hx
            · exact h4 ((wordHere_iff_run (by decide) (by decide) hc).2 hx)
            · exact h9 ((wordHere_iff_run (by decide) (by decide) hc).2 hx)
            · simp at hx
              exact h2 ((wordHere_iff_run (by decide) (by decide) hc).2 hx)
        rw [hrun, if_neg (by simp)]

theorem markerLen_nonword_head {c : Char} {rest : List Char}
    (hc : isWordChar c = false) : markerLen (c :: rest) = none := by
  simp only [markerLen]
  rw [wordHere_nonword_head (by decide) (by decide) hc,
    wordHere_nonword_head (by decide) (by decide) hc,
    wordHere_nonword_head (by decide) (by decide) hc]
  simp

theorem featStruct_nil : featStruct [] = [] := by simp [featStruct]

theorem featStruct_cons_nonword {c : Char} {rest : List Char}
    (h : isWordChar c = false) :
    featStruct (c :: rest) = c :: featStruct rest := by
  rw [featStruct, if_neg (by simp [h])]

theorem featStruct_cons_marker {c : Char} {rest : List Char}
    (h : isWordChar c = true)
    (hm : markerWords.contains (c :: rest.takeWhile isWordChar) = true) :
    featStruct (c :: rest) = [] := by
  rw [featStruct, if_pos h, if_pos hm]

theorem featStruct_cons_nonmarker {c : Char} {rest : List Char}
    (h : isWordChar c = true)
    (hm : markerWords.contains (c :: rest.takeWhile isWordChar) = false) :
    featStruct (c :: rest) =
      (c :: rest.takeWhile isWordChar) ++
        featStruct (rest.dropWhile isWordChar) := by
  rw [featStruct, if_pos h, if_neg (by rw [hm]; simp)]

theorem featAux_true_cons (c : Char) (rest : List Char) :
    featAux true (c :: rest) = c :: featAux (isWordChar c) rest := by
  simp [featAux]

theorem featAux_false_cons_none {c : Char} {rest : List Char}
    (h : markerLen (c :: rest) = none) :
    featAux false (c :: rest) = c :: featAux (isWordChar c) rest := by
  simp [featAux, h]

theorem featAux_false_cons_some {c : Char} {rest : List Char} {k : Nat}
    (h : markerLen (c :: rest) = some k)
    (ht : tailOk ((c :: rest).drop k) = true)
    (hn : ((c :: rest).drop k).contains '\n' = false) :
    featAux false (c :: rest) = [] := by
  simp only [featAux, h, if_neg (by simp : ¬(false = true))]
  rw [if_pos ht, if_neg (by rw [hn]; simp)]

theorem featAux_true_word_append {r : List Char}
    (hr : ∀ d ∈ r, isWordChar d = true) (s : List Char) :
    featAux true (r ++ s) = r ++ featAux true s := by
  induction r with
  | nil => simp
  | cons d r' ih =>
    rw [List.cons_append, featAux_true_cons, hr d (by simp),
      ih (fun e he => hr e (by simp [he]))]
    rfl

theorem featAux_true_eq_false {l : List Char}
    (h : ∀ d ∈ l.head?, isWordChar d = false) :
    featAux true l = featAux false l := by
  cases l with
  | nil => rfl
  | cons d t =>
    have hd := h d (by simp)
    rw [featAux_true_cons, featAux_false_cons_none (markerLen_nonword_head hd),
      hd]

theorem featAux_eq_featStruct_aux :
    ∀ (n : Nat) (l : List Char), l.length ≤ n → '\n' ∉ l →
      featAux false l = featStruct l := by
  intro n
  induction n with
  | zero =>
    intro l hl _
    rw [List.length_eq_zero.1 (Nat.le_zero.1 hl), featStruct_nil]
    rfl
  | succ n ih =>
    intro l hl hnl
    cases l with
    | nil => rw [featStruct_nil]; rfl
    | cons c rest =>
      by_cases h : isWordChar c = true
      · by_cases hm :
            markerWords.contains (c :: rest.takeWhile isWordChar) = true
        · have hml : markerLen (c :: rest) =
              some (c :: rest.takeWhile isWordChar).length := by
            rw [markerLen_run h, if_pos hm]
          have ht : tailOk
              ((c :: rest).drop (c :: rest.takeWhile isWordChar).length) =
              true :=
            tailOk_of_no_newline
              (fun hmem => hnl (List.mem_of_mem_drop hmem))
          have hn : ((c :: rest).drop
              (c :: rest.takeWhile isWordChar).length).contains '\n' =
              false := by
            cases hcon : ((c :: rest).drop
                (c :: rest.takeWhile isWordChar).length).contains '\n'
            · rfl
            · exact absurd
                (List.mem_of_mem_drop (List.mem_of_elem_eq_true hcon)) hnl
          rw [featAux_false_cons_some hml ht hn, featStruct_cons_marker h hm]
        · have hm' :
              markerWords.contains (c :: rest.takeWhile isWordChar) = false :=
            by simpa using hm
          have hml : markerLen (c :: rest) = none := by
            rw [markerLen_run h, if_neg (by rw [hm']; simp)]
          rw [featAux_false_cons_none hml, h]
          conv_lhs => rw [show rest =
            rest.takeWhile isWordChar ++ rest.dropWhile isWordChar from
            (List.takeWhile_append_dropWhile ..).symm]
          rw [featAux_true_word_append (fun e he => List.mem_takeWhile_imp he),
            featAux_true_eq_false (head_dropWhile_false isWordChar rest),
            ih (rest.dropWhile isWordChar)
              (Nat.le_trans (List.dropWhile_sublist _).length_le
                (Nat.le_of_succ_le_succ hl))
              (fun hmem => hnl
                (List.mem_cons_of_mem _ ((List.dropWhile_sublist _).mem hmem))),
            featStruct_cons_nonmarker h hm']
          rfl
      · have h' : isWordChar c = false := by simpa using h
        rw [featAux_false_cons_none (markerLen_nonword_head h'), h',
          ih rest (Nat.le_of_succ_le_succ hl)
            (fun hmem => hnl (by simp [hmem])),
          featStruct_cons_nonword h']

theorem featRemove_eq_featStruct {l : List Char} (h : '\n' ∉ l) :
    featRemove l = featStruct l :=
  featAux_eq_featStruct_aux l.length l (Nat.le_refl _) h

theorem featStruct_prefix_aux :
    ∀ (n : Nat) (l : List Char), l.length ≤ n →
      ∃ u, l = featStruct l ++ u := by
  intro n
  induction n with
  | zero =>
    intro l hl
    rw [List.length_eq_zero.1 (Nat.le_zero.1 hl), featStruct_nil]
    exact ⟨[], rfl⟩
  | succ n ih =>
    intro l hl
    cases l with
    | nil => rw [featStruct_nil]; exact ⟨[], rfl⟩
    | cons c rest =>
      by_cases h : isWordChar c = true
      · by_cases hm :
            markerWords.contains (c :: rest.takeWhile isWordChar) = true
        · rw [featStruct_cons_marker h hm]
          exact ⟨c :: rest, rfl⟩
        · have hm' :
              markerWords.contains (c :: rest.takeWhile isWordChar) = false :=
            by simpa using hm
          rw [featStruct_cons_nonmarker h hm']
          obtain ⟨u, hu⟩ := ih (rest.dropWhile isWordChar)
            (Nat.le_trans (List.dropWhile_sublist _).length_le
              (Nat.le_of_succ_le_succ hl))
          refine ⟨u, ?_⟩
          conv_lhs => rw [show c :: rest =
            (c :: rest.takeWhile isWordChar) ++ rest.dropWhile isWordChar by
            rw [List.cons_append, List.takeWhile_append_dropWhile], hu]
          simp
      · have h' : isWordChar c = false := by simpa using h
        rw [featStruct_cons_nonword h']
        obtain ⟨u, hu⟩ := ih rest (Nat.le_of_succ_le_succ hl)
        exact ⟨u, by rw [List.cons_append, ← hu]⟩

theorem featStruct_prefix (l : List Char) : ∃ u, l = featStruct l ++ u :=
  featStruct_prefix_aux l.length l (Nat.le_refl _)

theorem head_featStruct_nonword {l : List Char}
    (h : ∀ d ∈ l.head?, isWordChar d = false) :
    ∀ d ∈ (featStruct l).head?, isWordChar d = false := by
  cases l with
  | nil => rw [featStruct_nil]; simp
  | cons c rest =>
    have hc := h c (by simp)
    rw [featStruct_cons_nonword hc]
    intro d hd
    simp only [List.head?_cons, Option.mem_def, Option.some.injEq] at hd
    subst hd
    exact hc

theorem wordRuns_featStruct_aux :
    ∀ (n : Nat) (l : List Char), l.length ≤ n →
      wordRuns (featStruct l) =
        (wordRuns l).takeWhile (fun r => !(markerWords.contains r)) := by
  intro n
  induction n with
  | zero =>
    intro l hl
    rw [List.length_eq_zero.1 (Nat.le_zero.1 hl), featStruct_nil,
      wordRuns_nil]
    rfl
  | succ n ih =>
    intro l hl
    cases l with
    | nil => rw [featStruct_nil, wordRuns_nil]; rfl
    | cons c rest =>
      by_cases h : isWordChar c = true
      · by_cases hm :
            markerWords.contains (c :: rest.takeWhile isWordChar) = true
        · rw [featStruct_cons_marker h hm, wordRuns_nil,
            wordRuns_cons_word h, List.takeWhile_cons,
            if_neg (by rw [hm]; simp)]
        · have hm' :
              markerWords.contains (c :: rest.takeWhile isWordChar) = false :=
            by simpa using hm
          rw [featStruct_cons_nonmarker h hm', wordRuns_cons_word h,
            List.takeWhile_cons, if_pos (by rw [hm']; rfl)]
          rw [wordRuns_append_run (by simp)
            (fun d hd => by
              rcases List.mem_cons.1 hd with h1 | h1
              · subst h1; exact h
              · exact List.mem_takeWhile_imp h1)
            (head_featStruct_nonword (head_dropWhile_false isWordChar rest))]
          rw [ih (rest.dropWhile isWordChar)
            (Nat.le_trans (List.dropWhile_sublist _).length_le
              (Nat.le_of_succ_le_succ hl))]
      · have h' : isWordChar c = false := by simpa using h
        rw [featStruct_cons_nonword h', wordRuns_cons_nonword h',
          wordRuns_cons_nonword h', ih rest (Nat.le_of_succ_le_succ hl)]

theorem wordRuns_featStruct (l : List Char) :
    wordRuns (featStruct l) =
      (wordRuns l).takeWhile (fun r => !(markerWords.contains r)) :=
  wordRuns_featStruct_aux l.length l (Nat.le_refl _)

theorem featStruct_eq_self_of_no_marker_aux :
    ∀ (n : Nat) (l : List Char), l.length ≤ n →
      (∀ r ∈ wordRuns l, markerWords.contains r = false) →
      featStruct l = l := by
  intro n
  induction n with
  | zero =>
    intro l hl _
    rw [List.length_eq_zero.1 (Nat.le_zero.1 hl), featStruct_nil]
  | succ n ih =>
    intro l hl hno
    cases l with
    | nil => exact featStruct_nil
    | cons c rest =>
      by_cases h : isWordChar c = true
      · have hrun : markerWords.contains (c :: rest.takeWhile isWordChar) =
            false := by
          apply hno
          rw [wordRuns_cons_word h]
          simp
        rw [featStruct_cons_nonmarker h hrun,
          ih (rest.dropWhile isWordChar)
            (Nat.le_trans (List.dropWhile_sublist _).length_le
              (Nat.le_of_succ_le_succ hl))
            (fun r hr => hno r (by rw [wordRuns_cons_word h]; simp [hr])),
          List.cons_append, List.takeWhile_append_dropWhile]
      · have h' : isWordChar c = false := by simpa using h
        rw [featStruct_cons_nonword h',
          ih rest (Nat.le_of_succ_le_succ hl)
            (fun r hr => hno r (by rwa [wordRuns_cons_nonword h']))]

theorem featStruct_eq_self_of_no_marker {l : List Char}
    (hno : ∀ r ∈ wordRuns l, markerWords.contains r = false) :
    featStruct l = l :=
  featStruct_eq_self_of_no_marker_aux l.length l (Nat.le_refl _) hno

/-! ### Composite pipeline lemmas -/

theorem mem_spaced {c : Char} :
    ∀ {rs : List (List Char)}, c ∈ spaced rs → c = ' ' ∨ ∃ r ∈ rs, c ∈ r := by
  intro rs
  induction rs with
  | nil => intro h; rw [spaced_nil] at h; cases h
  | cons r rs ih =>
    cases rs with
    | nil =>
      rw [spaced_single]
      intro h
      exact Or.inr ⟨r, by simp, h⟩
    | cons a as =>
      rw [spaced_cons_cons]
      intro h
      rcases List.mem_append.1 h with h1 | h1
      · exact Or.inr ⟨r, by simp, h1⟩
      · rcases List.mem_cons.1 h1 with h2 | h2
        · exact Or.inl h2
        · rcases ih h2 with h3 | ⟨r', hr', hc⟩
          · exact Or.inl h3
          · exact Or.inr ⟨r', by simp [hr'], hc⟩

theorem no_newline_spaced {rs : List (List Char)}
    (h2 : ∀ r ∈ rs, ∀ d ∈ r, isWordChar d = true) : '\n' ∉ spaced rs := by
  intro h
  rcases mem_spaced h with h1 | ⟨r, hr, hc⟩
  · cases h1
  · have := h2 r hr _ hc
    rw [show isWordChar '\n' = false by decide] at this
    cases this

theorem map_id_of_fix {f : Char → Char} :
    ∀ {l : List Char}, (∀ c ∈ l, f c = c) → l.map f = l := by
  intro l
  induction l with
  | nil => intro _; rfl
  | cons c t ih =>
    intro h
    rw [List.map_cons, h c (by simp), ih (fun d hd => h d (by simp [hd]))]

theorem chars_spaced_wordRuns_lower (x : List Char) :
    ∀ c ∈ spaced (wordRuns (lowerStr x)), c.toLower = c := by
  intro c hc
  rcases mem_spaced hc with h1 | ⟨r, hr, hcr⟩
  · subst h1; decide
  · have hmem : c ∈ lowerStr x := wordRuns_chars_mem r hr c hcr
    obtain ⟨a, _, ha⟩ := List.mem_map.1 hmem
    rw [← ha]
    exact toLower_toLower a

theorem no_newline_lowerStr {x : List Char} (h : '\n' ∉ x) :
    '\n' ∉ lowerStr x := by
  intro hm
  obtain ⟨a, ha, hla⟩ := List.mem_map.1 hm
  exact h (toLower_eq_newline hla ▸ ha)

theorem normalize_title_eq_featStruct (x : List Char) :
    normalize_title x = featStruct (spaced (wordRuns (lowerStr x))) := by
  show featRemove (stripBoth (collapse (depunct (lowerStr x)))) = _
  rw [stripBoth_collapse_depunct,
    featRemove_eq_featStruct (no_newline_spaced wordRuns_all_word)]

theorem stripBoth_featStruct_spaced {t : List Char} :
    stripBoth (featStruct (spaced (wordRuns t))) =
      spaced ((wordRuns t).takeWhile (fun r => !(markerWords.contains r))) := by
  obtain ⟨u', hu⟩ := featStruct_prefix (spaced (wordRuns t))
  have hss : SingleSpaced (spaced (wordRuns t)) :=
    singleSpaced_spaced wordRuns_ne_nil wordRuns_all_word
  have hssy : SingleSpaced (featStruct (spaced (wordRuns t))) :=
    singleSpaced_append_left (hu ▸ hss)
  have hchars : ∀ c ∈ featStruct (spaced (wordRuns t)),
      isWordChar c = true ∨ c = ' ' := by
    intro c hc
    have hcu : c ∈ spaced (wordRuns t) := by
      rw [hu]; exact List.mem_append_left _ hc
    rcases mem_spaced hcu with h1 | ⟨r, hr, hcr⟩
    · exact Or.inr h1
    · exact Or.inl (wordRuns_all_word r hr c hcr)
  have hdep : depunct (featStruct (spaced (wordRuns t))) =
      featStruct (spaced (wordRuns t)) :=
    depunct_singleSpaced_fix hssy hchars
  have hcol : collapse (featStruct (spaced (wordRuns t))) =
      featStruct (spaced (wordRuns t)) :=
    collapse_of_singleSpaced hssy
  calc stripBoth (featStruct (spaced (wordRuns t)))
      = stripBoth (collapse (depunct (featStruct (spaced (wordRuns t))))) := by
        rw [hdep, hcol]
    _ = spaced (wordRuns (featStruct (spaced (wordRuns t)))) :=
        stripBoth_collapse_depunct _
    _ = spaced ((wordRuns (spaced (wordRuns t))).takeWhile
          (fun r => !(markerWords.contains r))) := by
        rw [wordRuns_featStruct]
    _ = spaced ((wordRuns t).takeWhile
          (fun r => !(markerWords.contains r))) := by
        rw [wordRuns_spaced wordRuns_ne_nil wordRuns_all_word]

theorem clean_for_search_eq {x : List Char} (h : '\n' ∉ x) :
    clean_for_search x =
      spaced ((wordRuns (lowerStr x)).takeWhile
        (fun r => !(markerWords.contains r))) := by
  show stripBoth (collapse (depunct (featRemove (lowerStr x)))) = _
  rw [featRemove_eq_featStruct (no_newline_lowerStr h),
    stripBoth_collapse_depunct, wordRuns_featStruct]

theorem featRemove_spaced_takeWhile (t : List Char) :
    featRemove (spaced ((wordRuns t).takeWhile
        (fun r => !(markerWords.contains r)))) =
      spaced ((wordRuns t).takeWhile (fun r => !(markerWords.contains r))) := by
  have hsub : ∀ r ∈ (wordRuns t).takeWhile (fun r => !(markerWords.contains r)),
      r ∈ wordRuns t := fun r hr => (List.takeWhile_sublist _).mem hr
  have h1 : ∀ r ∈ (wordRuns t).takeWhile (fun r => !(markerWords.contains r)),
      r ≠ [] := fun r hr => wordRuns_ne_nil r (hsub r hr)
  have h2 : ∀ r ∈ (wordRuns t).takeWhile (fun r => !(markerWords.contains r)),
      ∀ d ∈ r, isWordChar d = true :=
    fun r hr => wordRuns_all_word r (hsub r hr)
  rw [featRemove_eq_featStruct (no_newline_spaced h2)]
  apply featStruct_eq_self_of_no_marker
  rw [wordRuns_spaced h1 h2]
  intro r hr
  have := List.mem_takeWhile_imp hr
  simpa using this

theorem chars_spaced_takeWhile_lower (x : List Char) :
    ∀ c ∈ spaced ((wordRuns (lowerStr x)).takeWhile
      (fun r => !(markerWords.contains r))), c.toLower = c := by
  intro c hc
  rcases mem_spaced hc with h1 | ⟨r, hr, hcr⟩
  · subst h1; decide
  · have hrs : r ∈ wordRuns (lowerStr x) := (List.takeWhile_sublist _).mem hr
    have hmem : c ∈ lowerStr x := wordRuns_chars_mem r hrs c hcr
    obtain ⟨a, _, ha⟩ := List.mem_map.1 hmem
    rw [← ha]
    exact toLower_toLower a

theorem normalize_title_twice (x : List Char) :
    normalize_title (normalize_title x) = stripBoth (normalize_title x) := by
  have hA := normalize_title_eq_featStruct x
  have hlow : lowerStr (normalize_title x) = normalize_title x := by
    rw [hA]
    apply map_id_of_fix
    intro c hc
    obtain ⟨u', hu⟩ := featStruct_prefix (spaced (wordRuns (lowerStr x)))
    have hcu : c ∈ spaced (wordRuns (lowerStr x)) := by
      rw [hu]; exact List.mem_append_left _ hc
    exact chars_spaced_wordRuns_lower x c hcu
  show featRemove (stripBoth (collapse (depunct
    (lowerStr (normalize_title x))))) = _
  rw [hlow, hA, stripBoth_collapse_depunct, wordRuns_featStruct,
    wordRuns_spaced wordRuns_ne_nil wordRuns_all_word,
    stripBoth_featStruct_spaced]
  exact featRemove_spaced_takeWhile (lowerStr x)

theorem stripBoth_normalize_eq_clean {x : List Char} (h : '\n' ∉ x) :
    stripBoth (normalize_title x) = clean_for_search x := by
  rw [normalize_title_eq_featStruct, stripBoth_featStruct_spaced,
    clean_for_search_eq h]

theorem clean_for_search_idem {x : List Char} (h : '\n' ∉ x) :
    clean_for_search (clean_for_search x) = clean_for_search x := by
  rw [clean_for_search_eq h]
  have hsub : ∀ r ∈ (wordRuns (lowerStr x)).takeWhile
      (fun r => !(markerWords.contains r)), r ∈ wordRuns (lowerStr x) :=
    fun r hr => (List.takeWhile_sublist _).mem hr
  have h1 : ∀ r ∈ (wordRuns (lowerStr x)).takeWhile
      (fun r => !(markerWords.contains r)), r ≠ [] :=
    fun r hr => wordRuns_ne_nil r (hsub r hr)
  have h2 : ∀ r ∈ (wordRuns (lowerStr x)).takeWhile
      (fun r => !(markerWords.contains r)), ∀ d ∈ r, isWordChar d = true :=
    fun r hr => wordRuns_all_word r (hsub r hr)
  show stripBoth (collapse (depunct (featRemove (lowerStr _)))) = _
  rw [show lowerStr (spaced ((wordRuns (lowerStr x)).takeWhile
        (fun r => !(markerWords.contains r)))) =
      spaced ((wordRuns (lowerStr x)).takeWhile
        (fun r => !(markerWords.contains r))) from
      map_id_of_fix (chars_spaced_takeWhile_lower x),
    featRemove_spaced_takeWhile, stripBoth_collapse_depunct,
    wordRuns_spaced h1 h2]

/-! ### Claim-support lemmas -/

theorem bool_eq_false {b : Bool} (h : ¬ b = true) : b = false := by
  cases b
  · rfl
  · exact absurd rfl h

theorem append_cons_ne (x y : List Char) (c : Char) : x ++ c :: y ≠ x := by
  intro h
  have := congrArg List.length h
  simp only [List.length_append, List.length_cons] at this
  omega

theorem firstSplitPart_length_lt {sep : List Char} (hsep : sep ≠ []) :
    ∀ {l : List Char}, containsSeq sep l = true →
      (firstSplitPart sep l).length < l.length := by
  intro l
  induction l with
  | nil =>
    intro h
    rw [containsSeq] at h
    rw [List.isEmpty_iff] at h
    exact absurd h hsep
  | cons c rest ih =>
    intro h
    by_cases hp : sep.isPrefixOf (c :: rest) = true
    · rw [firstSplitPart, if_pos hp]
      simp
    · rw [firstSplitPart, if_neg hp]
      rw [containsSeq, Bool.or_eq_true] at h
      rcases h with h | h
      · exact absurd h hp
      · simpa using ih h

theorem findOcc_some_occursAt {sep : List Char} :
    ∀ {l : List Char} {i : Nat}, findOcc sep l = some i → occursAt sep l i := by
  intro l
  induction l with
  | nil =>
    intro i h
    rw [findOcc] at h
    by_cases he : sep.isEmpty = true
    · rw [if_pos he] at h
      cases h
      rw [occursAt, List.drop_nil]
      rw [List.isEmpty_iff] at he
      subst he
      rfl
    · rw [if_neg he] at h
      cases h
  | cons c rest ih =>
    intro i h
    rw [findOcc] at h
    by_cases hp : sep.isPrefixOf (c :: rest) = true
    · rw [if_pos hp] at h
      cases h
      exact hp
    · rw [if_neg hp] at h
      cases hfr : findOcc sep rest with
      | none => rw [hfr] at h; cases h
      | some j =>
        rw [hfr] at h
        simp only [Option.map_some'] at h
        cases h
        exact ih hfr

theorem findOcc_some_least {sep : List Char} :
    ∀ {l : List Char} {i : Nat}, findOcc sep l = some i →
      ∀ j < i, ¬ occursAt sep l j := by
  intro l
  induction l with
  | nil =>
    intro i h j hj
    rw [findOcc] at h
    by_cases he : sep.isEmpty = true
    · rw [if_pos he] at h; cases h; omega
    · rw [if_neg he] at h; cases h
  | cons c rest ih =>
    intro i h j hj
    rw [findOcc] at h
    by_cases hp : sep.isPrefixOf (c :: rest) = true
    · rw [if_pos hp] at h; cases h; omega
    · rw [if_neg hp] at h
      cases hfr : findOcc sep rest with
      | none => rw [hfr] at h; cases h
      | some k =>
        rw [hfr] at h
        simp only [Option.map_some'] at h
        cases h
        cases j with
        | zero => exact fun hocc => hp hocc
        | succ j' =>
          intro hocc
          exact ih hfr j' (by omega) hocc

theorem findOcc_none {sep : List Char} :
    ∀ {l : List Char}, findOcc sep l = none → ∀ i, ¬ occursAt sep l i := by
  intro l
  induction l with
  | nil =>
    intro h i hocc
    rw [findOcc] at h
    by_cases he : sep.isEmpty = true
    · rw [if_pos he] at h; cases h
    · rw [occursAt, List.drop_nil] at hocc
      have : sep = [] := by
        cases sep with
        | nil => rfl
        | cons a as => simp [List.isPrefixOf] at hocc
      subst this
      simp at he
  | cons c rest ih =>
    intro h i hocc
    rw [findOcc] at h
    by_cases hp : sep.isPrefixOf (c :: rest) = true
    · rw [if_pos hp] at h; cases h
    · rw [if_neg hp] at h
      cases hfr : findOcc sep rest with
      | none =>
        cases i with
        | zero => exact hp hocc
        | succ i' => exact ih hfr i' hocc
      | some j => rw [hfr] at h; simp at h

theorem containsSeq_eq_isSome (sep : List Char) :
    ∀ (l : List Char), containsSeq sep l = (findOcc sep l).isSome := by
  intro l
  induction l with
  | nil =>
    rw [containsSeq, findOcc]
    by_cases he : sep.isEmpty = true
    · rw [if_pos he, he]; rfl
    · rw [if_neg he]
      simp only [Option.isSome_none]
      simpa using he
  | cons c rest ih =>
    rw [containsSeq, findOcc]
    by_cases hp : sep.isPrefixOf (c :: rest) = true
    · rw [if_pos hp, hp]; rfl
    · rw [if_neg hp]
      rw [bool_eq_false hp]
      rw [Bool.false_or, ih]
      cases findOcc sep rest <;> rfl

theorem firstSplitPart_eq_take {sep : List Char} :
    ∀ {l : List Char} {i : Nat}, findOcc sep l = some i →
      firstSplitPart sep l = l.take i := by
  intro l
  induction l with
  | nil => intro i _; simp [firstSplitPart]
  | cons c rest ih =>
    intro i h
    rw [findOcc] at h
    by_cases hp : sep.isPrefixOf (c :: rest) = true
    · rw [if_pos hp] at h
      cases h
      rw [firstSplitPart, if_pos hp]
      rfl
    · rw [if_neg hp] at h
      cases hfr : findOcc sep rest with
      | none => rw [hfr] at h; cases h
      | some j =>
        rw [hfr] at h
        simp only [Option.map_some'] at h
        cases h
        rw [firstSplitPart, if_neg hp, List.take_succ_cons, ih hfr]

theorem afterFirst_eq_drop {sep : List Char} :
    ∀ {l : List Char} {i : Nat}, findOcc sep l = some i →
      afterFirst sep l = l.drop (i + sep.length) := by
  intro l
  induction l with
  | nil => intro i _; simp [afterFirst]
  | cons c rest ih =>
    intro i h
    rw [findOcc] at h
    by_cases hp : sep.isPrefixOf (c :: rest) = true
    · rw [if_pos hp] at h
      cases h
      rw [afterFirst, if_pos hp]
      simp
    · rw [if_neg hp] at h
      cases hfr : findOcc sep rest with
      | none => rw [hfr] at h; cases h
      | some j =>
        rw [hfr] at h
        simp only [Option.map_some'] at h
        cases h
        rw [afterFirst, if_neg hp, ih hfr]
        rw [show j + 1 + sep.length = (j + sep.length) + 1 by omega]
        rfl

theorem dedupAux_eq_spec :
    ∀ (lines : List (List Char)) (seen : List (List Char)),
      dedupAux seen lines =
        dedupSpec (lines.filter
          (fun m => !(seen.contains (normalize_title m)))) := by
  intro lines
  induction lines with
  | nil =>
    intro seen
    rw [List.filter_nil, show dedupSpec [] = [] by rw [dedupSpec]]
    rfl
  | cons l ls ih =>
    intro seen
    by_cases hs : seen.contains (normalize_title l) = true
    · rw [dedupAux, if_pos hs, List.filter_cons, if_neg (by rw [hs]; simp), ih]
    · have hs' : seen.contains (normalize_title l) = false := bool_eq_false hs
      rw [dedupAux, if_neg hs, List.filter_cons, if_pos (by rw [hs']; rfl)]
      rw [ih (normalize_title l :: seen), dedupSpec, List.filter_filter]
      refine congrArg (fun u => l :: dedupSpec u) (List.filter_congr ?_)
      intro m _
      rw [List.contains_cons]
      cases hbeq : normalize_title m == normalize_title l <;>
        cases hc : seen.contains (normalize_title m) <;> rfl

theorem remove_duplicates_lines_eq_spec (lines : List (List Char)) :
    remove_duplicates_lines lines = dedupSpec lines := by
  rw [remove_duplicates_lines, dedupAux_eq_spec]
  congr 1
  apply List.filter_eq_self.2
  intro m _
  rfl

theorem compare_filter_split :
    ∀ (lines refKeys : List (List Char)),
      (compare_filter refKeys lines).1 =
        (lines.map stripBoth).filter
          (fun s => !s.isEmpty && !(refKeys.contains (normalize_title s))) ∧
      (compare_filter refKeys lines).2 =
        ((lines.map stripBoth).filter
          (fun s => !s.isEmpty && refKeys.contains (normalize_title s))).length ∧
      (compare_filter refKeys lines).1.length + (compare_filter refKeys lines).2 +
        (lines.filter (fun l => (stripBoth l).isEmpty)).length = lines.length := by
  intro lines refKeys
  induction lines with
  | nil => exact ⟨rfl, rfl, rfl⟩
  | cons l ls ih =>
    obtain ⟨ih1, ih2, ih3⟩ := ih
    by_cases hemp : (stripBoth l).isEmpty = true
    · rw [show compare_filter refKeys (l :: ls) = compare_filter refKeys ls by
        rw [compare_filter, if_pos hemp]]
      refine ⟨?_, ?_, ?_⟩
      · rw [ih1, List.map_cons, List.filter_cons, if_neg (by rw [hemp]; simp)]
      · rw [ih2, List.map_cons, List.filter_cons, if_neg (by rw [hemp]; simp)]
      · rw [List.filter_cons, if_pos hemp]
        simp only [List.length_cons]
        omega
    · have hemp' : (stripBoth l).isEmpty = false := bool_eq_false hemp
      by_cases href : refKeys.contains (normalize_title (stripBoth l)) = true
      · rw [show compare_filter refKeys (l :: ls) =
            ((compare_filter refKeys ls).1, (compare_filter refKeys ls).2 + 1) by
          rw [compare_filter, if_neg (by simp [hemp']), if_pos href]]
        refine ⟨?_, ?_, ?_⟩
        · rw [ih1, List.map_cons, List.filter_cons,
            if_neg (by rw [hemp', href]; simp)]
        · rw [List.map_cons, List.filter_cons,
            if_pos (by rw [hemp', href]; rfl)]
          simp only [List.length_cons]
          rw [ih2]
        · rw [List.filter_cons, if_neg hemp]
          simp only [List.length_cons]
          omega
      · have href' : refKeys.contains (normalize_title (stripBoth l)) = false :=
          bool_eq_false href
        rw [show compare_filter refKeys (l :: ls) =
            (stripBoth l :: (compare_filter refKeys ls).1,
              (compare_filter refKeys ls).2) by
          rw [compare_filter, if_neg (by simp [hemp']), if_neg href]]
        refine ⟨?_, ?_, ?_⟩
        · rw [List.map_cons, List.filter_cons,
            if_pos (by rw [hemp', href']; rfl)]
          rw [ih1]
        · rw [ih2, List.map_cons, List.filter_cons,
            if_neg (by rw [hemp', href']; simp)]
        · rw [List.filter_cons, if_neg hemp]
          simp only [List.length_cons]
          omega

theorem gsq_take2 (t a : List Char) :
    (generate_search_queries t a).take 2 =
      [clean_for_search t ++ ' ' :: clean_for_search a, clean_for_search t] := by
  simp only [generate_search_queries]
  split_ifs <;> simp

theorem gsq_head (t a : List Char) :
    (generate_search_queries t a).head? =
      some (clean_for_search t ++ ' ' :: clean_for_search a) := by
  simp only [generate_search_queries]
  split_ifs <;> simp

theorem gsq_take3 (t a : List Char)
    (h : containsSeq artistSep (clean_for_search a) = true) :
    (generate_search_queries t a).take 3 =
      [clean_for_search t ++ ' ' :: clean_for_search a, clean_for_search t,
       clean_for_search t ++ ' ' ::
         firstSplitPart artistSep (clean_for_search a)] := by
  simp only [generate_search_queries, h]
  split_ifs <;> simp

theorem digit_not_space {c : Char} (h : c.isDigit = true) :
    isSpaceChar c = false := by
  cases hs : isSpaceChar c
  · rfl
  · simp only [isSpaceChar, Bool.or_eq_true, decide_eq_true_eq] at hs
    rcases hs with ((((h1 | h1) | h1) | h1) | h1) | h1 <;> subst h1 <;>
      exact absurd h (by decide)

theorem toLower_eq_underscore {c : Char} (h : c.toLower = '_') : c = '_' := by
  by_cases hc : c.toNat ≥ 65 ∧ c.toNat ≤ 90
  · exfalso
    have hv : (c.toNat + 32).isValidChar := Or.inl (by omega)
    have ht := charToNat_ofNat_valid (c.toNat + 32) hv
    have : c.toLower.toNat = c.toNat + 32 := by
      simp only [Char.toLower, if_pos hc]; exact ht
    rw [h] at this
    simp only [show ('_').toNat = 95 from rfl] at this
    omega
  · rwa [show c.toLower = c by simp only [Char.toLower, if_neg hc]] at h

theorem no_underscore_lowerStr {x : List Char} (h : '_' ∉ x) :
    '_' ∉ lowerStr x := by
  intro hm
  obtain ⟨a, ha, hla⟩ := List.mem_map.1 hm
  exact h (toLower_eq_underscore hla ▸ ha)

theorem map_congr_mem {f g : Char → Char} :
    ∀ {l : List Char}, (∀ c ∈ l, f c = g c) → l.map f = l.map g := by
  intro l
  induction l with
  | nil => intro _; rfl
  | cons c t ih =>
    intro h
    rw [List.map_cons, List.map_cons, h c (by simp),
      ih (fun d hd => h d (by simp [hd]))]

theorem specDepunct_eq_depunct {l : List Char} (h : '_' ∉ l) :
    specDepunct l = depunct l := by
  apply map_congr_mem
  intro c hc
  have hc' : c ≠ '_' := fun he => h (he ▸ hc)
  have hiw : isWordChar c = c.isAlphanum := by
    unfold isWordChar
    rw [show (decide (c = '_')) = false by simpa using hc']
    exact Bool.or_false _
  rw [hiw]

theorem specFeatStrip_true_cons (c : Char) (rest : List Char) :
    specFeatStrip true (c :: rest) = c :: specFeatStrip (isWordChar c) rest := by
  simp [specFeatStrip]

theorem specFeatStrip_false_cons_none {c : Char} {rest : List Char}
    (h : markerLen (c :: rest) = none) :
    specFeatStrip false (c :: rest) = c :: specFeatStrip (isWordChar c) rest := by
  simp [specFeatStrip, h]

theorem specFeatStrip_false_cons_some {c : Char} {rest : List Char} {k : Nat}
    (h : markerLen (c :: rest) = some k) :
    specFeatStrip false (c :: rest) = [] := by
  simp [specFeatStrip, h]

theorem specFeatStrip_eq_featAux :
    ∀ (l : List Char), '\n' ∉ l → ∀ pw, specFeatStrip pw l = featAux pw l := by
  intro l
  induction l with
  | nil => intro _ pw; rfl
  | cons c rest ih =>
    intro h pw
    have hrest : '\n' ∉ rest := fun hm => h (by simp [hm])
    cases pw with
    | true =>
      rw [specFeatStrip_true_cons, featAux_true_cons, ih hrest (isWordChar c)]
    | false =>
      cases hml : markerLen (c :: rest) with
      | none =>
        rw [specFeatStrip_false_cons_none hml, featAux_false_cons_none hml,
          ih hrest (isWordChar c)]
      | some k =>
        have ht : tailOk ((c :: rest).drop k) = true :=
          tailOk_of_no_newline (fun hm => h (List.mem_of_mem_drop hm))
        have hn : ((c :: rest).drop k).contains '\n' = false := by
          cases hcon : ((c :: rest).drop k).contains '\n'
          · rfl
          · exact absurd
              (List.mem_of_mem_drop (List.mem_of_elem_eq_true hcon)) h
        rw [specFeatStrip_false_cons_some hml,
          featAux_false_cons_some hml ht hn]

theorem clean_for_search_eq_specNormalizedKey {x : List Char}
    (hn : '\n' ∉ x) (hu : '_' ∉ x) :
    clean_for_search x = specNormalizedKey x := by
  have hnl : '\n' ∉ lowerStr x := no_newline_lowerStr hn
  have hul : '_' ∉ lowerStr x := no_underscore_lowerStr hu
  have hfa : '_' ∉ featRemove (lowerStr x) := by
    rw [featRemove_eq_featStruct hnl]
    obtain ⟨u, hequ⟩ := featStruct_prefix (lowerStr x)
    intro hm
    exact hul (by rw [hequ]; exact List.mem_append_left u hm)
  calc clean_for_search x
      = stripBoth (collapse (depunct (featRemove (lowerStr x)))) := rfl
    _ = stripBoth (collapse (specDepunct (featRemove (lowerStr x)))) := by
        rw [specDepunct_eq_depunct hfa]
    _ = stripBoth (collapse (specDepunct (specFeatStrip false (lowerStr x)))) := by
        rw [specFeatStrip_eq_featAux (lowerStr x) hnl false]
        rfl
    _ = specNormalizedKey x := rfl

theorem pyWordsF_fuel :
    ∀ (n : Nat) (l : List Char), l.length ≤ n →
      ∀ (m : Nat), l.length ≤ m → pyWordsF n l = pyWordsF m l := by
  intro n
  induction n with
  | zero =>
    intro l hn m _
    rw [List.length_eq_zero.1 (Nat.le_zero.1 hn)]
    cases m <;> rfl
  | succ n ih =>
    intro l hn m hm
    cases l with
    | nil => cases m <;> rfl
    | cons c rest =>
      cases m with
      | zero => simp at hm
      | succ m =>
        by_cases hc : isSpaceChar c = true
        · rw [show pyWordsF (n + 1) (c :: rest) = pyWordsF n rest by
            simp [pyWordsF, hc]]
          rw [show pyWordsF (m + 1) (c :: rest) = pyWordsF m rest by
            simp [pyWordsF, hc]]
          exact ih rest (Nat.le_of_succ_le_succ hn) m (Nat.le_of_succ_le_succ hm)
        · have hc' := bool_eq_false hc
          rw [show pyWordsF (n + 1) (c :: rest) =
              (c :: rest.takeWhile (fun d => !isSpaceChar d)) ::
                pyWordsF n (rest.dropWhile (fun d => !isSpaceChar d)) by
            simp [pyWordsF, hc']]
          rw [show pyWordsF (m + 1) (c :: rest) =
              (c :: rest.takeWhile (fun d => !isSpaceChar d)) ::
                pyWordsF m (rest.dropWhile (fun d => !isSpaceChar d)) by
            simp [pyWordsF, hc']]
          rw [ih _ (Nat.le_trans (List.dropWhile_sublist _).length_le
              (Nat.le_of_succ_le_succ hn)) m
            (Nat.le_trans (List.dropWhile_sublist _).length_le
              (Nat.le_of_succ_le_succ hm))]

theorem pyWords_cons_space {c : Char} (h : isSpaceChar c = true)
    (rest : List Char) : pyWords (c :: rest) = pyWords rest := by
  show pyWordsF (rest.length + 1) (c :: rest) = pyWordsF rest.length rest
  simp [pyWordsF, h]

theorem pyWords_cons_nonspace {c : Char} (h : isSpaceChar c = false)
    (rest : List Char) :
    pyWords (c :: rest) =
      (c :: rest.takeWhile (fun d => !isSpaceChar d)) ::
        pyWords (rest.dropWhile (fun d => !isSpaceChar d)) := by
  show pyWordsF (rest.length + 1) (c :: rest) = _
  rw [show pyWordsF (rest.length + 1) (c :: rest) =
      (c :: rest.takeWhile (fun d => !isSpaceChar d)) ::
        pyWordsF rest.length (rest.dropWhile (fun d => !isSpaceChar d)) by
    simp [pyWordsF, h]]
  rw [pyWordsF_fuel rest.length _ (List.dropWhile_sublist _).length_le
    (rest.dropWhile (fun d => !isSpaceChar d)).length (Nat.le_refl _)]
  rfl

theorem pyWords_append_run {r u : List Char} (hr : r ≠ [])
    (hra : ∀ d ∈ r, isSpaceChar d = false)
    (hu : ∀ d ∈ u.head?, isSpaceChar d = true) :
    pyWords (r ++ u) = r :: pyWords u := by
  cases r with
  | nil => exact absurd rfl hr
  | cons c r' =>
    have hc : isSpaceChar c = false := hra c (by simp)
    rw [List.cons_append, pyWords_cons_nonspace hc]
    have htw : (r' ++ u).takeWhile (fun d => !isSpaceChar d) = r' := by
      rw [List.takeWhile_append,
        if_pos (by rw [List.takeWhile_eq_self_iff.2
          (fun d hd => by rw [hra d (by simp [hd])]; rfl)])]
      have hz : u.takeWhile (fun d => !isSpaceChar d) = [] := by
        cases u with
        | nil => rfl
        | cons d t =>
          rw [List.takeWhile_cons, if_neg (by rw [hu d (by simp)]; simp)]
      rw [hz, List.append_nil]
    have hdw : (r' ++ u).dropWhile (fun d => !isSpaceChar d) = u := by
      rw [List.dropWhile_append,
        List.dropWhile_eq_nil_iff.2
          (fun d hd => by rw [hra d (by simp [hd])]; rfl)]
      simp only [List.isEmpty_nil, if_true]
      cases u with
      | nil => rfl
      | cons d t =>
        rw [List.dropWhile_cons, if_neg (by rw [hu d (by simp)]; simp)]
    rw [htw, hdw]

theorem pyWords_spaced {ws : List (List Char)} (h1 : ∀ r ∈ ws, r ≠ [])
    (h2 : ∀ r ∈ ws, ∀ d ∈ r, isWordChar d = true) :
    pyWords (spaced ws) = ws := by
  induction ws with
  | nil => rfl
  | cons r rs ih =>
    have hnr : ∀ d ∈ r, isSpaceChar d = false :=
      fun d hd => word_not_space (h2 r (by simp) d hd)
    cases rs with
    | nil =>
      rw [spaced_single, show r = r ++ ([] : List Char) by simp,
        pyWords_append_run (by simpa using h1 r (by simp)) hnr (by simp)]
      simp [show pyWords ([] : List Char) = [] from rfl]
    | cons a as =>
      rw [spaced_cons_cons,
        pyWords_append_run (h1 r (by simp)) hnr (by simp; decide),
        pyWords_cons_space (by decide)]
      rw [ih (fun x hx => h1 x (by simp [hx])) (fun x hx => h2 x (by simp [hx]))]

theorem spaced_pyWords_clean (title : List Char) :
    spaced (pyWords (clean_for_search title)) = clean_for_search title := by
  have h : clean_for_search title =
      spaced (wordRuns (featRemove (lowerStr title))) :=
    stripBoth_collapse_depunct _
  rw [h, pyWords_spaced wordRuns_ne_nil wordRuns_all_word]

theorem gsq_not_nodup (title artists : List Char)
    (h2 : 2 < (pyWords (clean_for_search title)).length)
    (hcw : ∀ w ∈ pyWords (clean_for_search title),
      commonWords.contains w = false) :
    ¬ (generate_search_queries title artists).Nodup := by
  intro hnd
  have hfilter : (pyWords (clean_for_search title)).filter
      (fun w => !(commonWords.contains w)) =
      pyWords (clean_for_search title) :=
    List.filter_eq_self.2 (fun w hw => by rw [hcw w hw]; rfl)
  simp only [generate_search_queries] at hnd
  rw [if_pos h2, hfilter] at hnd
  have hne : ((pyWords (clean_for_search title)).isEmpty) = false := by
    cases hp : pyWords (clean_for_search title) with
    | nil => rw [hp] at h2; simp at h2
    | cons a as => rfl
  rw [if_pos (by rw [hne]; rfl), spaced_pyWords_clean] at hnd
  by_cases hsep :
      containsSeq artistSep (clean_for_search artists) = true
  · rw [if_pos hsep] at hnd
    simp only [List.cons_append, List.nil_append] at hnd
    exact (List.nodup_cons.1 hnd).1 (by simp)
  · rw [if_neg (by rw [bool_eq_false hsep]; simp)] at hnd
    simp only [List.cons_append, List.nil_append] at hnd
    exact (List.nodup_cons.1 hnd).1 (by simp)

/-! ### Claims -/

/-- C1, counterexample: `normalize_title` is not idempotent.  On
`"a feat b"` one application yields `"a "` (the featuring-marker removal
runs after whitespace collapsing/stripping and leaves a trailing space),
while a second application yields `"a"`. -/
theorem C1_counterexample :
    normalize_title (normalize_title ("a feat b".toList)) ≠
      normalize_title ("a feat b".toList) := by decide

/-- C1 (amended): applying `normalize_title` twice equals applying it once
and then stripping surrounding whitespace; idempotence holds exactly up to
the single trailing space a featuring-marker removal can leave. -/
theorem C1_normalize_title_twice (x : List Char) :
    normalize_title (normalize_title x) = stripBoth (normalize_title x) :=
  normalize_title_twice x

/-- C2, counterexample: `normalize_title` and `clean_for_search` are not the
same function: on `"hello feat world"` the former yields `"hello "` and the
latter `"hello"`. -/
theorem C2_counterexample :
    normalize_title ("hello feat world".toList) ≠
      clean_for_search ("hello feat world".toList) := by decide

/-- C2 (amended): neither function equals the spec's NormalizedKey pipeline
(lowercase → strip from a feat marker onward → replace non-alphanumeric,
non-whitespace characters with a space → collapse whitespace → trim)
verbatim: `clean_for_search` differs from it in exactly two ways — the
regex `.*$` suppresses the marker stripping when a non-final newline
follows the marker, and an underscore is a `\w` character and survives
de-punctuation — and agrees with it on every input containing neither a
newline nor an underscore; `normalize_title` additionally performs the
marker removal last and can retain one trailing space, and agrees with
`clean_for_search` after stripping that whitespace on newline-free input. -/
theorem C2_pipelines (x : List Char) :
    ('\n' ∉ x → '_' ∉ x → clean_for_search x = specNormalizedKey x) ∧
      ('\n' ∉ x → stripBoth (normalize_title x) = clean_for_search x) ∧
      clean_for_search ("a _ b".toList) ≠ specNormalizedKey ("a _ b".toList) ∧
      clean_for_search ("a feat b\nc".toList) ≠
        specNormalizedKey ("a feat b\nc".toList) :=
  ⟨fun hn hu => clean_for_search_eq_specNormalizedKey hn hu,
    fun h => stripBoth_normalize_eq_clean h, by decide, by decide⟩

/-- C2 witness at `"song feat artist"` (no newline, no underscore). -/
theorem C2_witness :
    ('\n' ∉ ("song feat artist".toList) ∧
        '_' ∉ ("song feat artist".toList) ∧
        clean_for_search ("song feat artist".toList) =
          specNormalizedKey ("song feat artist".toList)) ∧
      stripBoth (normalize_title ("song feat artist".toList)) =
        clean_for_search ("song feat artist".toList) :=
  ⟨⟨by decide, by decide,
      (C2_pipelines ("song feat artist".toList)).1 (by decide) (by decide)⟩,
    (C2_pipelines ("song feat artist".toList)).2.1 (by decide)⟩

/-- C3, counterexample: `generate_search_queries` performs no
deduplication.  For title `"one two three"` and artists `"x"` the
common-words fallback query equals the first query, so the returned
sequence contains a repeated string. -/
theorem C3_counterexample :
    ¬ (generate_search_queries ("one two three".toList)
        ("x".toList)).Nodup := by
  decide

/-- C3 (amended): the queries are not deduplicated: whenever the cleaned
title has more than two whitespace-separated words and none of them is a
common word (`the`, `a`, `an`), the common-words fallback query repeats an
earlier query and the returned sequence is not duplicate-free; however the
first two queries are always distinct, and the first-artist variant, when
emitted as the third query, differs from both of them. -/
theorem C3_first_queries (title artists : List Char) :
    (generate_search_queries title artists).take 2 =
        [clean_for_search title ++ ' ' :: clean_for_search artists,
         clean_for_search title] ∧
      clean_for_search title ++ ' ' :: clean_for_search artists ≠
        clean_for_search title ∧
      (containsSeq artistSep (clean_for_search artists) = true →
        (generate_search_queries title artists).take 3 =
          [clean_for_search title ++ ' ' :: clean_for_search artists,
           clean_for_search title,
           clean_for_search title ++ ' ' ::
             firstSplitPart artistSep (clean_for_search artists)] ∧
        clean_for_search title ++ ' ' ::
            firstSplitPart artistSep (clean_for_search artists) ≠
          clean_for_search title ++ ' ' :: clean_for_search artists ∧
        clean_for_search title ++ ' ' ::
            firstSplitPart artistSep (clean_for_search artists) ≠
          clean_for_search title) ∧
      (2 < (pyWords (clean_for_search title)).length →
        (∀ w ∈ pyWords (clean_for_search title),
          commonWords.contains w = false) →
        ¬ (generate_search_queries title artists).Nodup) := by
  refine ⟨gsq_take2 title artists, append_cons_ne _ _ _,
    fun h => ⟨gsq_take3 title artists h, ?_, append_cons_ne _ _ _⟩,
    fun h2 hcw => gsq_not_nodup title artists h2 hcw⟩
  intro heq
  have hlen := congrArg List.length heq
  simp only [List.length_append, List.length_cons] at hlen
  have := firstSplitPart_length_lt (by decide : artistSep ≠ []) h
  omega

/-- C3 witness at title `"red green blue"`, artists `"a _ b"`: the
first-artist variant is emitted (artist separator present), the cleaned
title has three non-common words, and the resulting query list is not
duplicate-free. -/
theorem C3_witness :
    (generate_search_queries ("red green blue".toList)
          ("a _ b".toList)).take 2 =
        [clean_for_search ("red green blue".toList) ++ ' ' ::
           clean_for_search ("a _ b".toList),
         clean_for_search ("red green blue".toList)] ∧
      (generate_search_queries ("red green blue".toList)
          ("a _ b".toList)).take 3 =
        [clean_for_search ("red green blue".toList) ++ ' ' ::
           clean_for_search ("a _ b".toList),
         clean_for_search ("red green blue".toList),
         clean_for_search ("red green blue".toList) ++ ' ' ::
           firstSplitPart artistSep
             (clean_for_search ("a _ b".toList))] ∧
      ¬ (generate_search_queries ("red green blue".toList)
          ("a _ b".toList)).Nodup :=
  ⟨(C3_first_queries ("red green blue".toList) ("a _ b".toList)).1,
    ((C3_first_queries ("red green blue".toList)
      ("a _ b".toList)).2.2.1 (by decide)).1,
    (C3_first_queries ("red green blue".toList)
      ("a _ b".toList)).2.2.2 (by decide) (by decide)⟩

/-- C4, counterexample: the first query cleans the artist string as a
whole, keeping the `" _ "` separators; it is not the space-joined list of
individually cleaned artist names.  For title `"t"` and artist string
`"a _ b"` (artist sequence `["a", "b"]`) the code emits `"t a _ b"`, not
`"t a b"`. -/
theorem C4_counterexample :
    (generate_search_queries ("t".toList) ("a _ b".toList)).head? ≠
      some (claimFirstQuery ("t".toList) ["a".toList, "b".toList]) := by
  decide

/-- C4 (amended): for every title and artist string, the first query equals
`clean_for_search title ++ " " ++ clean_for_search artists`, where the raw
artist string is cleaned as a whole (the `" _ "` separators between artist
names survive cleaning; names are not cleaned individually nor re-joined by
single spaces). -/
theorem C4_first_query (title artists : List Char) :
    (generate_search_queries title artists).head? =
      some (clean_for_search title ++ ' ' :: clean_for_search artists) :=
  gsq_head title artists

/-- C5, counterexample: when the delimiter `" by "` is absent,
`parse_song_line` returns the line unchanged, not trimmed: on `"  hello"`
it returns `("  hello", "")`, while the claim predicts the trimmed title
`"hello"`. -/
theorem C5_counterexample :
    parse_song_line ("  hello".toList) ≠
      (stripBoth ("  hello".toList), ([] : List Char)) := by decide

/-- C5 (amended): `parse_song_line` splits at the first occurrence of the
case-sensitive literal `" by "`: when it occurs first at index `i`, the
title is the trimmed prefix before `i` and the artist string is the trimmed
suffix after the delimiter (a delimiter followed by only whitespace yields
an empty artist string); when it does not occur at all, the line is
returned unchanged (not trimmed) with an empty artist string. -/
theorem C5_parse_song_line (line : List Char) :
    (∀ i, findOcc byDelim line = some i →
        occursAt byDelim line i ∧ (∀ j < i, ¬ occursAt byDelim line j) ∧
        parse_song_line line =
          (stripBoth (line.take i),
            stripBoth (line.drop (i + byDelim.length)))) ∧
      (findOcc byDelim line = none →
        (∀ i, ¬ occursAt byDelim line i) ∧
          parse_song_line line = (line, [])) := by
  constructor
  · intro i h
    refine ⟨findOcc_some_occursAt h, findOcc_some_least h, ?_⟩
    simp only [parse_song_line]
    rw [if_pos (by rw [containsSeq_eq_isSome, h]; rfl),
      firstSplitPart_eq_take h, afterFirst_eq_drop h]
  · intro h
    refine ⟨findOcc_none h, ?_⟩
    simp only [parse_song_line]
    rw [if_neg (by rw [containsSeq_eq_isSome, h]; simp)]

/-- C5 witness: `"a by b by c"` splits at the first `" by "` (index 1, both
later candidates ignored); `"A BY B"` contains no case-sensitive `" by "`
and is returned unchanged; `"x by "` has empty artist text. -/
theorem C5_witness :
    (occursAt byDelim ("a by b by c".toList) 1 ∧
        (∀ j < 1, ¬ occursAt byDelim ("a by b by c".toList) j) ∧
        parse_song_line ("a by b by c".toList) =
          (stripBoth (("a by b by c".toList).take 1),
            stripBoth (("a by b by c".toList).drop (1 + byDelim.length)))) ∧
      ((∀ i, ¬ occursAt byDelim ("A BY B".toList) i) ∧
        parse_song_line ("A BY B".toList) = ("A BY B".toList, [])) ∧
      parse_song_line ("x by ".toList) =
        (stripBoth (("x by ".toList).take 1),
          stripBoth (("x by ".toList).drop (1 + byDelim.length))) :=
  ⟨(C5_parse_song_line ("a by b by c".toList)).1 1 (by decide),
    (C5_parse_song_line ("A BY B".toList)).2 (by decide),
    ((C5_parse_song_line ("x by ".toList)).1 1 (by decide)).2.2⟩

/-- C6: the line filtering of `remove_duplicates_from_file` keeps exactly
the first line of each `normalize_title`-key class, preserving the original
line text and order (blank lines are not treated specially), and on
`["Song A by X", "song a by x", "Song B by Y"]` it keeps the first and
third lines. -/
theorem C6_deduplicate_lines :
    (∀ lines : List (List Char),
        remove_duplicates_lines lines = dedupSpec lines) ∧
      remove_duplicates_lines
          ["Song A by X".toList, "song a by x".toList,
           "Song B by Y".toList] =
        ["Song A by X".toList, "Song B by Y".toList] :=
  ⟨remove_duplicates_lines_eq_spec, by decide⟩

/-- C7: the line classification of `compare_and_remove_duplicates` skips
blank-after-trim lines entirely, keeps a non-blank (trimmed) line in order
iff its key is absent from the reference set, counts it as removed iff the
key is present, and the removed count equals the number of lines minus the
kept lines minus the blank lines. -/
theorem C7_compare_filter (lines refKeys : List (List Char)) :
    (compare_filter refKeys lines).1 =
        (lines.map stripBoth).filter
          (fun s => !s.isEmpty && !(refKeys.contains (normalize_title s))) ∧
      (compare_filter refKeys lines).2 =
        ((lines.map stripBoth).filter
          (fun s => !s.isEmpty && refKeys.contains (normalize_title s))).length ∧
      (compare_filter refKeys lines).2 =
        lines.length - (compare_filter refKeys lines).1.length -
          (lines.filter (fun l => (stripBoth l).isEmpty)).length := by
  obtain ⟨h1, h2, h3⟩ := compare_filter_split lines refKeys
  exact ⟨h1, h2, by omega⟩

/-- C8, counterexample: `clean_filename` removes every occurrence of the
hidden-file marker `._`, not only a leading one: on `"a._b.mp3"` it yields
`"ab"`, while the claimed prefix-only pipeline yields `"a b"`. -/
theorem C8_counterexample :
    clean_filename ("a._b.mp3".toList) ≠
      cleanFilenameClaim ("a._b.mp3".toList) := by decide

/-- C8 (amended): `clean_filename` strips the extension, removes every
occurrence of `._`, strips a leading track number, deletes parenthesized
and bracketed groups, de-punctuates, collapses whitespace and trims; in
particular `"03-Song Title (Live) [HD].mp3"` becomes `"Song Title"` and
`"._Song.mp3"` becomes `"Song"`. -/
theorem C8_clean_filename :
    (∀ filename : List Char,
        clean_filename filename = cleanFilenameAmended filename) ∧
      clean_filename ("03-Song Title (Live) [HD].mp3".toList) =
        "Song Title".toList ∧
      clean_filename ("._Song.mp3".toList) = "Song".toList :=
  ⟨fun _ => rfl, by decide, by decide⟩

/-- C9: `is_track_number` returns true exactly when the cleaned title
(lowercased, de-punctuated, whitespace-collapsed, trimmed) is the word
`track` alone or `track` followed by one space and a run of digits;
`"Track 12"` is accepted and `"Track Star"` rejected. -/
theorem C9_is_track_number (title : List Char) :
    (is_track_number title = true ↔
        cleanedTitle title = trackW ∨
          ∃ ds : List Char, ds ≠ [] ∧ (∀ c ∈ ds, c.isDigit = true) ∧
            cleanedTitle title = trackW ++ ' ' :: ds) ∧
      is_track_number ("Track 12".toList) = true ∧
      is_track_number ("Track Star".toList) = false := by
  refine ⟨?_, by decide, by decide⟩
  have hct : cleanedTitle title = spaced (wordRuns (lowerStr title)) :=
    stripBoth_collapse_depunct _
  have hss : SingleSpaced (cleanedTitle title) := by
    rw [hct]
    exact singleSpaced_spaced wordRuns_ne_nil wordRuns_all_word
  constructor
  · intro h
    simp only [is_track_number, matchTrack, Bool.and_eq_true] at h
    obtain ⟨t, ht⟩ := prefixOf_exists _ _ h.1
    have h2 := h.2
    rw [ht] at hss h2 ⊢
    rw [List.drop_left] at h2
    cases t with
    | nil => exact Or.inl (by simp)
    | cons e t' =>
      simp only [List.isEmpty_cons, Bool.false_or, Bool.and_eq_true] at h2
      have he : isSpaceChar e = true := h2.1
      have hesp : e = ' ' := hss.1 e (by simp) he
      have hchain : (e :: t').Chain'
          (fun a b => ¬(isSpaceChar a = true ∧ isSpaceChar b = true)) :=
        (List.chain'_append.1 hss.2).2.1
      have hhead : ∀ y ∈ t'.head?, isSpaceChar y = false := by
        intro y hy
        exact bool_eq_false
          (fun hsp => (List.chain'_cons'.1 hchain).1 y hy ⟨he, hsp⟩)
      have hdw : (e :: t').dropWhile isSpaceChar = t' := by
        rw [List.dropWhile_cons, if_pos he]
        exact stripL_of_head_false hhead
      rw [hdw] at h2
      have h3 := h2.2
      simp only [Bool.and_eq_true, Bool.not_eq_true', List.isEmpty_iff,
        List.all_eq_true] at h3
      refine Or.inr ⟨t', ?_, h3.2, by rw [hesp]⟩
      intro hnil
      rw [List.isEmpty_iff.2 hnil] at h3
      exact absurd h3.1 (by simp)
  · intro h
    rcases h with h | ⟨ds, hne, hdig, h⟩
    · show matchTrack (cleanedTitle title) = true
      rw [h]
      decide
    · show matchTrack (cleanedTitle title) = true
      rw [h]
      simp only [matchTrack, Bool.and_eq_true]
      refine ⟨prefixOf_append _ _, ?_⟩
      rw [List.drop_left]
      have hdw : (' ' :: ds).dropWhile isSpaceChar = ds := by
        rw [List.dropWhile_cons, if_pos (by decide)]
        refine stripL_of_head_false ?_
        intro y hy
        exact digit_not_space (hdig y (List.mem_of_mem_head? hy))
      simp only [List.isEmpty_cons, Bool.false_or, Bool.and_eq_true]
      refine ⟨by decide, ?_⟩
      rw [hdw]
      simp only [Bool.and_eq_true, Bool.not_eq_true', List.isEmpty_iff,
        List.all_eq_true]
      refine ⟨?_, hdig⟩
      cases ds with
      | nil => exact absurd rfl hne
      | cons a as => rfl

/-- C10, counterexample: `clean_for_search` is not idempotent on strings
with an internal newline: on `"a feat b\nc"` the anchored regex `.*$`
cannot cross the newline so no marker is removed and the result is
`"a feat b c"`, whose second cleaning yields `"a"`. -/
theorem C10_counterexample :
    clean_for_search (clean_for_search ("a feat b\nc".toList)) ≠
      clean_for_search ("a feat b\nc".toList) := by decide

/-- C10 (amended): `clean_for_search` is idempotent on every string that
contains no newline character (its outputs are then fixed points:
lowercase, marker-free, word characters and single spaces only, trimmed). -/
theorem C10_clean_for_search_idem {x : List Char} (h : '\n' ∉ x) :
    clean_for_search (clean_for_search x) = clean_for_search x :=
  clean_for_search_idem h

/-- C10 witness at `"go feat x"`. -/
theorem C10_witness :
    '\n' ∉ ("go feat x".toList) ∧
      clean_for_search (clean_for_search ("go feat x".toList)) =
        clean_for_search ("go feat x".toList) :=
  ⟨by decide, C10_clean_for_search_idem (by decide)⟩
